import Mathlib

/-!
Verification of the single-sign repository core:
- the document-boundary scanner `find_concatenated_json_ranges` (src/common/src/lib.rs),
- the signature verifier `verify_signature` (src/common/src/signing.rs),
- the guest attestation program (src/guests/single-sign/src/main.rs and
  src/methods/guest/src/main.rs, which contain the same logic),
- the per-document host orchestrator loop (src/apps/src/bin/prove.rs).

Machine integers: the scanner depth counter is a Rust u32 updated with
saturating_add, modelled as a Nat capped at 4294967295. Byte offsets
(usize) are Nat. Opaque cryptography (keccak256, ECDSA address recovery)
and the EIP-712 digest routine are uninterpreted function parameters.
-/

namespace SingleSign

/-- u32::MAX, the saturation bound of the scanner depth counter. -/
def UMAX : Nat := 4294967295

/-- Ethereum addresses, modelled abstractly as naturals. -/
abbrev Address := Nat

/-- Byte range into a blob, from src/common/src/lib.rs `DigestRange`.
The field `stop` models the Rust field `end` (a Lean keyword). -/
structure DigestRange where
  start : Nat
  stop : Nat
deriving DecidableEq, Repr

/-- UTF-8 encoded width of a character, as Rust `char::len_utf8`. -/
def utf8Width (c : Char) : Nat :=
  if c.toNat < 0x80 then 1
  else if c.toNat < 0x800 then 2
  else if c.toNat < 0x10000 then 3
  else 4

/-- Total UTF-8 byte length of a character list. -/
def utf8Len : List Char → Nat
  | [] => 0
  | c :: cs => utf8Width c + utf8Len cs

/-- The character that starts at byte offset `n` of the UTF-8 encoding
of the list (none if `n` is out of bounds or inside a multi-byte char). -/
def charAtByte : List Char → Nat → Option Char
  | [], _ => none
  | c :: cs, n =>
    if n = 0 then some c
    else if n < utf8Width c then none
    else charAtByte cs (n - utf8Width c)

/-- Errors of the scanner, carrying the data the anyhow messages
of src/common/src/lib.rs interpolate. -/
inductive ScanError where
  /-- models `anyhow!("Unmatched closing brace at byte {idx}")` -/
  | unmatchedClosingBrace (idx : Nat)
  /-- models `anyhow!("Missing start for JSON object ending at byte {idx}")` -/
  | missingStart (idx : Nat)
  /-- models `anyhow!("Unclosed JSON object(s); brace depth at end is {depth}")` -/
  | unclosedObjects (depth : Nat)
deriving DecidableEq, Repr

/-- Mutable locals of `find_concatenated_json_ranges` plus the byte index
of the `char_indices` iterator. -/
structure ScanState where
  idx : Nat
  depth : Nat
  inString : Bool
  escape : Bool
  currentStart : Option Nat
  ranges : List DigestRange
deriving DecidableEq, Repr

/-- One loop iteration of `find_concatenated_json_ranges` on character `c`
sitting at byte offset `st.idx`. -/
def scanStep (st : ScanState) (c : Char) : Except ScanError ScanState :=
  if st.inString then
    if st.escape then
      .ok { st with escape := false, idx := st.idx + utf8Width c }
    else if c = '\\' then
      .ok { st with escape := true, idx := st.idx + utf8Width c }
    else if c = '"' then
      .ok { st with inString := false, idx := st.idx + utf8Width c }
    else
      .ok { st with idx := st.idx + utf8Width c }
  else if c = '"' then
    .ok { st with inString := true, idx := st.idx + utf8Width c }
  else if c = '{' then
    .ok { st with currentStart := if st.depth = 0 then some st.idx else st.currentStart,
                  depth := min (st.depth + 1) UMAX,
                  idx := st.idx + utf8Width c }
  else if c = '}' then
    if st.depth = 0 then .error (.unmatchedClosingBrace st.idx)
    else if st.depth = 1 then
      match st.currentStart with
      | none => .error (.missingStart st.idx)
      | some s =>
        .ok { st with depth := 0, currentStart := none,
                      ranges := st.ranges ++ [⟨s, st.idx + utf8Width c⟩],
                      idx := st.idx + utf8Width c }
    else
      .ok { st with depth := st.depth - 1, idx := st.idx + utf8Width c }
  else
    .ok { st with idx := st.idx + utf8Width c }

/-- The `for (idx, ch) in input.char_indices()` loop. -/
def scanList (st : ScanState) : List Char → Except ScanError ScanState
  | [] => .ok st
  | c :: cs =>
    match scanStep st c with
    | .error e => .error e
    | .ok st' => scanList st' cs

/-- Initial locals of `find_concatenated_json_ranges`. -/
def initState : ScanState := ⟨0, 0, false, false, none, []⟩

/-- src/common/src/lib.rs `find_concatenated_json_ranges`, over the
character sequence of the input string. -/
def find_concatenated_json_ranges (input : List Char) : Except ScanError (List DigestRange) :=
  match scanList initState input with
  | .error e => .error e
  | .ok st => if st.depth ≠ 0 then .error (.unclosedObjects st.depth) else .ok st.ranges

/-! Composition lemmas for scan runs. -/

/-- Advance only the byte index of a state. -/
def bump (st : ScanState) (n : Nat) : ScanState := { st with idx := st.idx + n }

/-! Invariant carried by every successful scan: every recorded range starts
at a `{` byte, ends just after a `}` byte, and spans at least two bytes. -/

/-- Shape facts about one recorded range, relative to the scanned text. -/
def RangeOk (done : List Char) (r : DigestRange) : Prop :=
  charAtByte done r.start = some '{' ∧ charAtByte done (r.stop - 1) = some '}' ∧
  r.start + 2 ≤ r.stop ∧ r.stop ≤ utf8Len done

/-- Loop invariant of the scanner over the consumed prefix `done`. -/
def Inv (done : List Char) (st : ScanState) : Prop :=
  st.idx = utf8Len done ∧
  (∀ r ∈ st.ranges, RangeOk done r) ∧
  (∀ s, st.currentStart = some s → charAtByte done s = some '{' ∧ s < st.idx) ∧
  (st.currentStart = none ↔ st.depth = 0)

/-! A generator grammar for compact well-formed JSON texts, used to state
the scanner correctness claim over inputs made of N concatenated
top-level objects possibly separated by whitespace. -/

/-- One logical unit inside a JSON string literal: a plain character or a
backslash escape pair. -/
inductive SItem where
  | safe (c : Char)
  | esc (c : Char)
deriving DecidableEq, Repr

/-- Characters allowed unescaped inside a JSON string literal
(anything except the quote and the backslash; control characters are not
excluded because the scanner treats them like any other inert byte). -/
def wfSItem : SItem → Bool
  | .safe c => !(c = '"') && !(c = '\\')
  | .esc c => decide (c ∈ ['"', '\\', '/', 'b', 'f', 'n', 'r', 't', 'u'])

def serSItem : SItem → List Char
  | .safe c => [c]
  | .esc c => ['\\', c]

def serItems : List SItem → List Char
  | [] => []
  | i :: rest => serSItem i ++ serItems rest

/-- Serialization of a JSON string literal. -/
def serStr (items : List SItem) : List Char := '"' :: serItems items ++ ['"']

/-- Characters of JSON literal tokens: numbers, `true`, `false`, `null`. -/
def litChar (c : Char) : Bool :=
  decide (c ∈ ['0', '1', '2', '3', '4', '5', '6', '7', '8', '9',
               '-', '+', '.', 'e', 'E', 't', 'r', 'u', 'f', 'a', 'l', 's', 'n'])

/-- Whitespace characters permitted between top-level JSON documents. -/
def wsChar (c : Char) : Bool := decide (c ∈ [' ', '\t', '\n', '\r'])

def allWs (cs : List Char) : Bool := cs.all wsChar

mutual

/-- JSON value ASTs. Whitespace runs are explicit at every place the JSON
grammar permits them between tokens: after an opening bracket or brace, on
both sides of every array element, around member keys, after the colon,
and after every member value. -/
inductive JVal where
  | jstr : List SItem → JVal
  | jlit : List Char → JVal
  | jarr : List Char → JArr → JVal
  | jobj : List Char → JMembers → JVal

inductive JArr where
  | nil : JArr
  | cons : List Char → JVal → List Char → JArr → JArr

inductive JMembers where
  | nil : JMembers
  | cons : List Char → List SItem → List Char → List Char → JVal → List Char →
      JMembers → JMembers
end

mutual

def serVal : JVal → List Char
  | .jstr items => serStr items
  | .jlit cs => cs
  | .jarr ws a => '[' :: (ws ++ (serArr a ++ [']']))
  | .jobj ws ms => '{' :: (ws ++ (serMembers ms ++ ['}']))

def serArr : JArr → List Char
  | .nil => []
  | .cons ws1 v ws2 rest => ws1 ++ (serVal v ++ (ws2 ++ serArrTail rest))

def serArrTail : JArr → List Char
  | .nil => []
  | .cons ws1 v ws2 rest => ',' :: (ws1 ++ (serVal v ++ (ws2 ++ serArrTail rest)))

def serMembers : JMembers → List Char
  | .nil => []
  | .cons ws1 k ws2 ws3 v ws4 rest =>
    ws1 ++ (serStr k ++ (ws2 ++ (':' :: (ws3 ++ (serVal v ++
      (ws4 ++ serMembersTail rest))))))

def serMembersTail : JMembers → List Char
  | .nil => []
  | .cons ws1 k ws2 ws3 v ws4 rest =>
    ',' :: (ws1 ++ (serStr k ++ (ws2 ++ (':' :: (ws3 ++ (serVal v ++
      (ws4 ++ serMembersTail rest)))))))
end

mutual

def wfVal : JVal → Bool
  | .jstr items => items.all wfSItem
  | .jlit cs => !cs.isEmpty && cs.all litChar
  | .jarr ws a => allWs ws && wfArr a
  | .jobj ws ms => allWs ws && wfMembers ms

def wfArr : JArr → Bool
  | .nil => true
  | .cons ws1 v ws2 rest => allWs ws1 && wfVal v && allWs ws2 && wfArr rest

def wfMembers : JMembers → Bool
  | .nil => true
  | .cons ws1 k ws2 ws3 v ws4 rest =>
    allWs ws1 && k.all wfSItem && allWs ws2 && allWs ws3 && wfVal v &&
      allWs ws4 && wfMembers rest
end

mutual

/-- Maximum brace-nesting depth of a serialized JSON value
(square brackets are not braces and do not count). -/
def jdepthVal : JVal → Nat
  | .jstr _ => 0
  | .jlit _ => 0
  | .jarr _ a => jdepthArr a
  | .jobj _ ms => jdepthMembers ms + 1

def jdepthArr : JArr → Nat
  | .nil => 0
  | .cons _ v _ rest => max (jdepthVal v) (jdepthArr rest)

def jdepthMembers : JMembers → Nat
  | .nil => 0
  | .cons _ _ _ _ v _ rest => max (jdepthVal v) (jdepthMembers rest)
end

/-- A top-level JSON object: the whitespace just after its opening brace
and its member list. -/
structure TopObj where
  ws : List Char
  members : JMembers

/-- Serialization of a top-level JSON object. -/
def serObj (o : TopObj) : List Char := serVal (.jobj o.ws o.members)

/-- An input made of top-level objects, each followed by whitespace. -/
def buildInput : List (TopObj × List Char) → List Char
  | [] => []
  | (o, ws) :: rest => serObj o ++ (ws ++ buildInput rest)

/-- The ranges the scanner is expected to return on `buildInput`,
starting at byte offset `i`. -/
def expectedRanges (i : Nat) : List (TopObj × List Char) → List DigestRange
  | [] => []
  | (o, ws) :: rest =>
    ⟨i, i + utf8Len (serObj o)⟩ ::
      expectedRanges (i + utf8Len (serObj o) + utf8Len ws) rest

/-- Well-formedness of the parts of a concatenated input: each object is
well-formed JSON with brace nesting below the u32 bound, each separator is
whitespace. -/
def WfParts (parts : List (TopObj × List Char)) : Prop :=
  ∀ p ∈ parts, allWs p.1.ws = true ∧ wfMembers p.1.members = true ∧
    allWs p.2 = true ∧ jdepthMembers p.1.members + 1 ≤ UMAX

/-! Saturation counterexample: a single well-formed JSON object whose brace
nesting exceeds u32::MAX makes the scanner fail, because the depth counter
is updated with `saturating_add` and the closes then underrun it. -/

/-- The object nested `n` braces deep: `{"a":{"a": ... 1 ... }}`. -/
def deepVal : Nat → JVal
  | 0 => .jlit ['1']
  | n + 1 => .jobj [] (.cons [] [.safe 'a'] [] [] (deepVal n) [] .nil)

/-- Concatenation of `n` copies of the opening block `{"a":`. -/
def repB : Nat → List Char
  | 0 => []
  | n + 1 => '{' :: '"' :: 'a' :: '"' :: ':' :: repB n

/-! The signature verifier, src/common/src/signing.rs. Bytes are naturals;
keccak256 and ECDSA address recovery are opaque and supplied as a `Crypto`
record of uninterpreted functions. -/

/-- Opaque cryptographic primitives used by `verify_signature`:
`keccak` models `alloy_primitives::keccak256`, and `recoverAddress sig ph`
models `sig.recover_address_from_prehash(&ph)`. -/
structure Crypto where
  keccak : List Nat → List Nat
  recoverAddress : List Nat → List Nat → Except String Address

/-- The `MessageMode` enum of src/common/src/signing.rs. -/
inductive MessageMode where
  | Raw32
  | Keccak
  | Personal

/-- Errors of `verify_signature`, carrying the data interpolated into the
anyhow messages of the source:
`raw32Length` models `anyhow!("Raw32 mode requires a 32-byte prehash")`,
`recoveryFailed` models `anyhow!("recovery failed: {e}")`, and
`addressMismatch` models the message naming both the recovered and the
expected address. -/
inductive SignError where
  | raw32Length
  | recoveryFailed (msg : String)
  | addressMismatch (recovered expected : Address)
deriving DecidableEq

/-- ASCII bytes of a string literal. -/
def strBytes (s : String) : List Nat := s.data.map Char.toNat

/-- Bytes of the EIP-191 prefix `"\x19Ethereum Signed Message:\n" + len`
(the length rendered in decimal, as Rust `format!` does). -/
def personalHeader (len : Nat) : List Nat :=
  0x19 :: (strBytes "Ethereum Signed Message:" ++ (0x0A :: strBytes (toString len)))

/-- Step 1 of `verify_signature`: build the pre-hash from the mode. -/
def computePrehash (C : Crypto) (mode : MessageMode) (message : List Nat) :
    Except SignError (List Nat) :=
  match mode with
  | .Raw32 =>
    if message.length ≠ 32 then .error .raw32Length
    else .ok message
  | .Keccak => .ok (C.keccak message)
  | .Personal => .ok (C.keccak (personalHeader message.length ++ message))

/-- src/common/src/signing.rs `verify_signature`. -/
def verify_signature (C : Crypto) (message : List Nat) (signature : List Nat)
    (expected : Address) (mode : MessageMode) : Except SignError Bool :=
  match computePrehash C mode message with
  | .error e => .error e
  | .ok prehash =>
    match C.recoverAddress signature prehash with
    | .error e => .error (.recoveryFailed e)
    | .ok recovered =>
      if recovered ≠ expected then .error (.addressMismatch recovered expected)
      else .ok true

/-! The guest attestation program, src/guests/single-sign/src/main.rs and
src/methods/guest/src/main.rs (identical logic). Panics (`expect`, slice
index out of bounds, `String::from_utf8(..).unwrap()`) abort the run with
no Output, modelled as `none`. -/

/-- The `Input` struct crossing the host→guest boundary. -/
structure Input where
  signer : Address
  signature : List Nat
  typed_data_concat : List Nat
  digest_range : DigestRange
deriving DecidableEq

/-- The `Output` struct committed to the journal. -/
structure Output where
  signer : Address
  digest : List Nat
deriving DecidableEq

/-- Rust slice indexing `&bytes[r.start..r.end]`: panics (none) unless
`start ≤ end ≤ len`. -/
def sliceRange (bytes : List Nat) (r : DigestRange) : Option (List Nat) :=
  if r.start ≤ r.stop ∧ r.stop ≤ bytes.length then
    some ((bytes.drop r.start).take (r.stop - r.start))
  else none

/-- Standard UTF-8 validity of a byte sequence, the check performed by
`String::from_utf8` (rejecting overlong forms, surrogates and values above
U+10FFFF). -/
def isValidUtf8 : List Nat → Bool
  | [] => true
  | b :: rest =>
    if b < 0x80 then isValidUtf8 rest
    else if b < 0xC2 then false
    else if b < 0xE0 then
      match rest with
      | b2 :: rest2 => (0x80 ≤ b2 && b2 < 0xC0) && isValidUtf8 rest2
      | [] => false
    else if b < 0xE1 then
      match rest with
      | b2 :: b3 :: rest3 =>
        (0xA0 ≤ b2 && b2 < 0xC0) && (0x80 ≤ b3 && b3 < 0xC0) && isValidUtf8 rest3
      | _ => false
    else if b < 0xED then
      match rest with
      | b2 :: b3 :: rest3 =>
        (0x80 ≤ b2 && b2 < 0xC0) && (0x80 ≤ b3 && b3 < 0xC0) && isValidUtf8 rest3
      | _ => false
    else if b < 0xEE then
      match rest with
      | b2 :: b3 :: rest3 =>
        (0x80 ≤ b2 && b2 < 0xA0) && (0x80 ≤ b3 && b3 < 0xC0) && isValidUtf8 rest3
      | _ => false
    else if b < 0xF0 then
      match rest with
      | b2 :: b3 :: rest3 =>
        (0x80 ≤ b2 && b2 < 0xC0) && (0x80 ≤ b3 && b3 < 0xC0) && isValidUtf8 rest3
      | _ => false
    else if b < 0xF1 then
      match rest with
      | b2 :: b3 :: b4 :: rest4 =>
        (0x90 ≤ b2 && b2 < 0xC0) && (0x80 ≤ b3 && b3 < 0xC0) &&
          (0x80 ≤ b4 && b4 < 0xC0) && isValidUtf8 rest4
      | _ => false
    else if b < 0xF4 then
      match rest with
      | b2 :: b3 :: b4 :: rest4 =>
        (0x80 ≤ b2 && b2 < 0xC0) && (0x80 ≤ b3 && b3 < 0xC0) &&
          (0x80 ≤ b4 && b4 < 0xC0) && isValidUtf8 rest4
      | _ => false
    else if b < 0xF5 then
      match rest with
      | b2 :: b3 :: b4 :: rest4 =>
        (0x80 ≤ b2 && b2 < 0x90) && (0x80 ≤ b3 && b3 < 0xC0) &&
          (0x80 ≤ b4 && b4 < 0xC0) && isValidUtf8 rest4
      | _ => false
    else false

/-- The guest main: slice the blob by the untrusted range, compute the
EIP-712 digest of the slice (`vd` models `verify_digest`, the opaque
typed-data parser and hasher), verify the signature over the whole blob in
Personal mode, and commit `Output {signer, digest}`. Any failure panics:
no Output. -/
def guestMain (C : Crypto) (vd : List Nat → Except String (List Nat))
    (input : Input) : Option Output :=
  match sliceRange input.typed_data_concat input.digest_range with
  | none => none
  | some slice =>
    if isValidUtf8 slice then
      match vd slice with
      | .error _ => none
      | .ok digest =>
        match verify_signature C input.typed_data_concat input.signature
            input.signer .Personal with
        | .error _ => none
        | .ok _ => some { signer := input.signer, digest := digest }
    else none

/-! The host orchestrator loop of src/apps/src/bin/prove.rs, per document:
invoke the prover (opaque; its failure, journal-decode failure, or receipt
verification failure panics, modelled by `prover` returning none),
recompute the digest of the same byte range (`hd` models serde parsing
plus `eip712_signing_hash`, its unwraps panicking on error), and
`assert_eq!(digest, output.digest)`. A panic aborts the whole run (none).
The optional Permit2 dispatch that follows the assertion does not affect
the committed outputs and is elided. -/

def mkInput (signer : Address) (sig blob : List Nat) (r : DigestRange) : Input :=
  ⟨signer, sig, blob, r⟩

def hostProcessRange (hd : List Nat → Except String (List Nat))
    (prover : Input → Option Output) (signer : Address) (sig blob : List Nat)
    (r : DigestRange) : Option Output :=
  match prover (mkInput signer sig blob r) with
  | none => none
  | some output =>
    match sliceRange blob r with
    | none => none
    | some s =>
      if isValidUtf8 s then
        match hd s with
        | .error _ => none
        | .ok digest => if digest = output.digest then some output else none
      else none

def hostLoop (hd : List Nat → Except String (List Nat))
    (prover : Input → Option Output) (signer : Address) (sig blob : List Nat) :
    List DigestRange → Option (List Output)
  | [] => some []
  | r :: rest =>
    match hostProcessRange hd prover signer sig blob r with
    | none => none
    | some out =>
      match hostLoop hd prover signer sig blob rest with
      | none => none
      | some outs => some (out :: outs)

def cryptoOk : Crypto := ⟨fun _ => List.replicate 32 0, fun _ _ => .ok 7⟩

def cryptoBad : Crypto := ⟨fun _ => List.replicate 32 0, fun _ _ => .ok 3⟩

def vdId : List Nat → Except String (List Nat) := fun s => .ok s

def inputOk : Input := ⟨7, [1], [123, 125], ⟨0, 2⟩⟩

def outOk : Output := ⟨7, [123, 125]⟩

def inputBad : Input := ⟨7, [1], [123, 125], ⟨3, 1⟩⟩

def hdW : List Nat → Except String (List Nat) := fun _ => .ok [9]

def proverW : Input → Option Output := fun _ => some outOk

def partsW : List (TopObj × List Char) :=
  [(⟨[' '], JMembers.nil⟩, [' ']),
   (⟨[], JMembers.cons [' '] [SItem.safe 'a'] [' '] [' '] (JVal.jlit ['1']) [' ']
      JMembers.nil⟩, [])]

def stStr : ScanState := ⟨0, 0, true, false, none, []⟩

example : find_concatenated_json_ranges ['{', '}'] = .ok [⟨0, 2⟩] := rfl

example : find_concatenated_json_ranges ['}'] = .error (.unmatchedClosingBrace 0) := rfl

example : find_concatenated_json_ranges ['{'] = .error (.unclosedObjects 1) := rfl

/-! Basic facts about UTF-8 widths and byte offsets. -/

theorem utf8Width_pos (c : Char) : 1 ≤ utf8Width c := by
  unfold utf8Width
  split <;> try omega
  split <;> try omega
  split <;> omega

theorem utf8Len_append (xs ys : List Char) :
    utf8Len (xs ++ ys) = utf8Len xs + utf8Len ys := by
  induction xs with
  | nil => simp [utf8Len]
  | cons c cs ih => simp [utf8Len, ih]; omega

theorem utf8Len_cons (c : Char) (cs : List Char) :
    utf8Len (c :: cs) = utf8Width c + utf8Len cs := rfl

theorem charAtByte_append_left (xs ys : List Char) (n : Nat) (h : n < utf8Len xs) :
    charAtByte (xs ++ ys) n = charAtByte xs n := by
  induction xs generalizing n with
  | nil => simp [utf8Len] at h
  | cons c cs ih =>
    by_cases h0 : n = 0
    · simp [charAtByte, h0]
    · by_cases hw : n < utf8Width c
      · simp [charAtByte, h0, hw]
      · have : n - utf8Width c < utf8Len cs := by
          rw [utf8Len_cons] at h; omega
        simp [charAtByte, h0, hw, ih _ this]

theorem charAtByte_append_here (xs : List Char) (c : Char) (ys : List Char) :
    charAtByte (xs ++ c :: ys) (utf8Len xs) = some c := by
  induction xs with
  | nil => simp [charAtByte, utf8Len]
  | cons d ds ih =>
    have hd := utf8Width_pos d
    have h0 : utf8Len (d :: ds) ≠ 0 := by rw [utf8Len_cons]; omega
    have hw : ¬ utf8Len (d :: ds) < utf8Width d := by rw [utf8Len_cons]; omega
    have hsub : utf8Len (d :: ds) - utf8Width d = utf8Len ds := by
      rw [utf8Len_cons]; omega
    simp [charAtByte, h0, hw, hsub, ih]

theorem bump_zero (st : ScanState) : bump st 0 = st := rfl

theorem bump_bump (st : ScanState) (m n : Nat) :
    bump (bump st m) n = bump st (m + n) := by
  simp [bump, Nat.add_assoc]

theorem scanList_cons_ok {st st' st2 : ScanState} {c : Char} {cs : List Char}
    (h1 : scanStep st c = .ok st') (h2 : scanList st' cs = .ok st2) :
    scanList st (c :: cs) = .ok st2 := by
  simp [scanList, h1, h2]

theorem scanList_chain {xs : List Char} {st st1 st2 : ScanState} {ys : List Char}
    (h1 : scanList st xs = .ok st1) (h2 : scanList st1 ys = .ok st2) :
    scanList st (xs ++ ys) = .ok st2 := by
  induction xs generalizing st with
  | nil =>
    simp [scanList] at h1
    simpa [h1] using h2
  | cons c cs ih =>
    simp only [scanList] at h1
    cases h : scanStep st c with
    | error e => rw [h] at h1; exact absurd h1 (by simp)
    | ok stm =>
      rw [h] at h1
      exact scanList_cons_ok h (ih h1)

/-- A character that is inert outside of strings: not a quote and not a brace. -/
theorem scan_inertChar {st : ScanState} {c : Char}
    (hs : st.inString = false) (h1 : c ≠ '"') (h2 : c ≠ '{') (h3 : c ≠ '}') :
    scanStep st c = .ok (bump st (utf8Width c)) := by
  simp [scanStep, hs, h1, h2, h3, bump]

theorem scan_inertList {cs : List Char} {st : ScanState}
    (hall : ∀ c ∈ cs, c ≠ '"' ∧ c ≠ '{' ∧ c ≠ '}') (hs : st.inString = false) :
    scanList st cs = .ok (bump st (utf8Len cs)) := by
  induction cs generalizing st with
  | nil => simp [scanList, utf8Len, bump_zero]
  | cons c cs ih =>
    have hc := hall c (by simp)
    have hstep := scan_inertChar hs hc.1 hc.2.1 hc.2.2
    have hrest : scanList (bump st (utf8Width c)) cs = .ok (bump (bump st (utf8Width c)) (utf8Len cs)) :=
      ih (fun d hd => hall d (by simp [hd])) (by simp [bump, hs])
    rw [bump_bump] at hrest
    exact scanList_cons_ok hstep hrest

theorem RangeOk_append (done ext : List Char) (r : DigestRange) (h : RangeOk done r) :
    RangeOk (done ++ ext) r := by
  obtain ⟨h1, h2, h3, h4⟩ := h
  refine ⟨?_, ?_, h3, ?_⟩
  · rw [charAtByte_append_left _ _ _ (by omega)]; exact h1
  · rw [charAtByte_append_left _ _ _ (by omega)]; exact h2
  · rw [utf8Len_append]; omega

theorem inv_keep {done : List Char} {st : ScanState} (c : Char)
    (hinv : Inv done st) (st' : ScanState)
    (hidx : st'.idx = st.idx + utf8Width c)
    (hdep : st'.depth = st.depth) (hcs : st'.currentStart = st.currentStart)
    (hrg : st'.ranges = st.ranges) : Inv (done ++ [c]) st' := by
  obtain ⟨h1, h2, h3, h4⟩ := hinv
  have hw := utf8Width_pos c
  have hlen : utf8Len (done ++ [c]) = utf8Len done + utf8Width c := by
    rw [utf8Len_append]; simp [utf8Len]
  refine ⟨by omega, ?_, ?_, ?_⟩
  · intro r hr
    rw [hrg] at hr
    exact RangeOk_append _ _ _ (h2 r hr)
  · intro s hs
    rw [hcs] at hs
    obtain ⟨ha, hb⟩ := h3 s hs
    exact ⟨by rw [charAtByte_append_left _ _ _ (by omega)]; exact ha, by omega⟩
  · rw [hcs, hdep]; exact h4

theorem inv_step {done : List Char} {st st' : ScanState} {c : Char}
    (hinv : Inv done st) (h : scanStep st c = .ok st') : Inv (done ++ [c]) st' := by
  have hw := utf8Width_pos c
  have hlen : utf8Len (done ++ [c]) = utf8Len done + utf8Width c := by
    rw [utf8Len_append]; simp [utf8Len]
  obtain ⟨h1, h2, h3, h4⟩ := hinv
  by_cases hstr : st.inString = true
  · -- inside a string literal: depth, currentStart and ranges never change
    by_cases hesc : st.escape = true
    · simp only [scanStep, hstr, hesc, if_true] at h
      obtain rfl := (Except.ok.injEq _ _).mp h.symm
      exact inv_keep c ⟨h1, h2, h3, h4⟩ _ rfl rfl rfl rfl
    · by_cases hb : c = '\\'
      · subst hb
        simp only [scanStep, hstr, hesc, if_true, if_false, Bool.false_eq_true] at h
        obtain rfl := (Except.ok.injEq _ _).mp h.symm
        exact inv_keep _ ⟨h1, h2, h3, h4⟩ _ rfl rfl rfl rfl
      · by_cases hq : c = '"'
        · subst hq
          simp only [scanStep, hstr, hesc, hb, if_true, if_false, Bool.false_eq_true] at h
          obtain rfl := (Except.ok.injEq _ _).mp h.symm
          exact inv_keep _ ⟨h1, h2, h3, h4⟩ _ rfl rfl rfl rfl
        · simp only [scanStep, hstr, hesc, hb, hq, if_true, if_false, Bool.false_eq_true] at h
          obtain rfl := (Except.ok.injEq _ _).mp h.symm
          exact inv_keep c ⟨h1, h2, h3, h4⟩ _ rfl rfl rfl rfl
  · by_cases hq : c = '"'
    · -- entering a string literal
      subst hq
      simp only [scanStep, hstr, if_true, if_false, Bool.false_eq_true] at h
      obtain rfl := (Except.ok.injEq _ _).mp h.symm
      exact inv_keep _ ⟨h1, h2, h3, h4⟩ _ rfl rfl rfl rfl
    · by_cases hob : c = '{'
      · -- opening brace
        subst hob
        by_cases hd : st.depth = 0
        · have hstep : scanStep st '{' = .ok { st with
              currentStart := some st.idx
              depth := min (st.depth + 1) UMAX
              idx := st.idx + utf8Width '{' } := by
            simp [scanStep, hstr, hq, hd]
          rw [hstep] at h
          obtain rfl := (Except.ok.injEq _ _).mp h.symm
          refine ⟨?_, ?_, ?_, ?_⟩
          · show st.idx + utf8Width '{' = utf8Len (done ++ ['{'])
            rw [hlen]; omega
          · intro r hr
            exact RangeOk_append _ _ _ (h2 r hr)
          · intro s hs
            have hs' : st.idx = s := by simpa using hs
            subst hs'
            constructor
            · rw [h1]
              exact charAtByte_append_here done '{' []
            · show st.idx < st.idx + utf8Width '{'
              omega
          · show some st.idx = none ↔ min (st.depth + 1) UMAX = 0
            constructor
            · intro hn; exact absurd hn (by simp)
            · intro hm; exfalso; unfold UMAX at hm; omega
        · have hsome : st.currentStart ≠ none := fun hn => hd (h4.mp hn)
          have hstep : scanStep st '{' = .ok { st with
              depth := min (st.depth + 1) UMAX
              idx := st.idx + utf8Width '{' } := by
            simp [scanStep, hstr, hq, hd]
          rw [hstep] at h
          obtain rfl := (Except.ok.injEq _ _).mp h.symm
          refine ⟨?_, ?_, ?_, ?_⟩
          · show st.idx + utf8Width '{' = utf8Len (done ++ ['{'])
            rw [hlen]; omega
          · intro r hr
            exact RangeOk_append _ _ _ (h2 r hr)
          · intro s hs
            obtain ⟨ha, hb'⟩ := h3 s hs
            refine ⟨by rw [charAtByte_append_left _ _ _ (by omega)]; exact ha, ?_⟩
            show s < st.idx + utf8Width '{'
            omega
          · show st.currentStart = none ↔ min (st.depth + 1) UMAX = 0
            constructor
            · intro hn; exact absurd hn hsome
            · intro hm; exfalso; unfold UMAX at hm; omega
      · by_cases hcb : c = '}'
        · -- closing brace
          subst hcb
          by_cases hd0 : st.depth = 0
          · simp [scanStep, hstr, hq, hd0] at h
          · by_cases hd1 : st.depth = 1
            · cases hcs : st.currentStart with
              | none => simp [scanStep, hstr, hq, hd0, hd1, hcs] at h
              | some s =>
                have hstep : scanStep st '}' = .ok { st with
                    depth := 0
                    currentStart := none
                    ranges := st.ranges ++ [⟨s, st.idx + utf8Width '}'⟩]
                    idx := st.idx + utf8Width '}' } := by
                  simp [scanStep, hstr, hq, hd0, hd1, hcs]
                rw [hstep] at h
                obtain rfl := (Except.ok.injEq _ _).mp h.symm
                obtain ⟨ha, hb'⟩ := h3 s hcs
                have hw1 : utf8Width '}' = 1 := rfl
                refine ⟨?_, ?_, ?_, ?_⟩
                · show st.idx + utf8Width '}' = utf8Len (done ++ ['}'])
                  rw [hlen]; omega
                · intro r hr
                  rcases List.mem_append.mp hr with hr | hr
                  · exact RangeOk_append _ _ _ (h2 r hr)
                  · rw [List.mem_singleton] at hr
                    subst hr
                    refine ⟨?_, ?_, ?_, ?_⟩
                    · show charAtByte (done ++ ['}']) s = some '{'
                      rw [charAtByte_append_left _ _ _ (by omega)]; exact ha
                    · show charAtByte (done ++ ['}']) (st.idx + utf8Width '}' - 1) = some '}'
                      rw [hw1]
                      have heq : st.idx + 1 - 1 = utf8Len done := by omega
                      rw [heq]
                      exact charAtByte_append_here done '}' []
                    · show s + 2 ≤ st.idx + utf8Width '}'
                      rw [hw1]; omega
                    · show st.idx + utf8Width '}' ≤ utf8Len (done ++ ['}'])
                      rw [hlen]; omega
                · intro s' hs'
                  exact absurd hs' (by simp)
                · show (none : Option Nat) = none ↔ (0 = 0)
                  simp
            · have hstep : scanStep st '}' = .ok { st with
                  depth := st.depth - 1
                  idx := st.idx + utf8Width '}' } := by
                simp [scanStep, hstr, hq, hd0, hd1]
              rw [hstep] at h
              obtain rfl := (Except.ok.injEq _ _).mp h.symm
              have hsome : st.currentStart ≠ none := fun hn => hd0 (h4.mp hn)
              refine ⟨?_, ?_, ?_, ?_⟩
              · show st.idx + utf8Width '}' = utf8Len (done ++ ['}'])
                rw [hlen]; omega
              · intro r hr
                exact RangeOk_append _ _ _ (h2 r hr)
              · intro s hs
                obtain ⟨ha, hb'⟩ := h3 s hs
                refine ⟨by rw [charAtByte_append_left _ _ _ (by omega)]; exact ha, ?_⟩
                show s < st.idx + utf8Width '}'
                omega
              · show st.currentStart = none ↔ st.depth - 1 = 0
                constructor
                · intro hn; exact absurd hn hsome
                · intro hdep; exact absurd hdep (by omega)
        · -- inert character outside strings
          simp only [scanStep, hstr, hq, hob, hcb, if_true, if_false, Bool.false_eq_true] at h
          obtain rfl := (Except.ok.injEq _ _).mp h.symm
          exact inv_keep c ⟨h1, h2, h3, h4⟩ _ rfl rfl rfl rfl

theorem inv_scanList {rest : List Char} {done : List Char} {st st' : ScanState}
    (hinv : Inv done st) (h : scanList st rest = .ok st') : Inv (done ++ rest) st' := by
  induction rest generalizing done st with
  | nil =>
    simp [scanList] at h
    subst h
    simpa using hinv
  | cons c cs ih =>
    simp only [scanList] at h
    cases hstep : scanStep st c with
    | error e => rw [hstep] at h; exact absurd h (by simp)
    | ok stm =>
      rw [hstep] at h
      have := ih (inv_step hinv hstep) h
      simpa [List.append_assoc] using this

theorem inv_init : Inv [] initState := by
  refine ⟨rfl, by simp [initState], by simp [initState], by simp [initState]⟩

/-- Every range returned by a successful scan starts at a `{` byte, ends one
past a `}` byte, and spans at least two bytes inside the input. -/
theorem find_ok_rangeOk {input : List Char} {rs : List DigestRange}
    (h : find_concatenated_json_ranges input = .ok rs) :
    ∀ r ∈ rs, RangeOk input r := by
  cases hscan : scanList initState input with
  | error e => simp [find_concatenated_json_ranges, hscan] at h
  | ok st =>
    simp only [find_concatenated_json_ranges, hscan] at h
    have hinv := inv_scanList inv_init hscan
    simp only [List.nil_append] at hinv
    by_cases hd : st.depth ≠ 0
    · rw [if_pos hd] at h; exact absurd h (by simp)
    · rw [if_neg hd] at h
      simp only [Except.ok.injEq] at h
      subst h
      exact hinv.2.1

example : serObj ⟨[], .cons [] [.safe 'a'] [] [] (.jlit ['1']) [] .nil⟩ =
    ['{', '"', 'a', '"', ':', '1', '}'] := rfl

example : serObj ⟨[], .cons [' '] [.safe 'a'] [' '] [' '] (.jlit ['1']) [' '] .nil⟩ =
    ['{', ' ', '"', 'a', '"', ' ', ':', ' ', '1', ' ', '}'] := rfl

/-! Scan lemmas for the grammar pieces. -/

theorem litChar_inert {c : Char} (h : litChar c = true) :
    c ≠ '"' ∧ c ≠ '{' ∧ c ≠ '}' := by
  have hmem := of_decide_eq_true h
  have hall : ∀ x ∈ (['0', '1', '2', '3', '4', '5', '6', '7', '8', '9',
      '-', '+', '.', 'e', 'E', 't', 'r', 'u', 'f', 'a', 'l', 's', 'n'] : List Char),
      x ≠ '"' ∧ x ≠ '{' ∧ x ≠ '}' := by decide
  exact hall c hmem

theorem wsChar_inert {c : Char} (h : wsChar c = true) :
    c ≠ '"' ∧ c ≠ '{' ∧ c ≠ '}' := by
  have hmem := of_decide_eq_true h
  have hall : ∀ x ∈ ([' ', '\t', '\n', '\r'] : List Char),
      x ≠ '"' ∧ x ≠ '{' ∧ x ≠ '}' := by decide
  exact hall c hmem

/-- Whitespace outside strings only advances the byte index. -/
theorem scan_ws {cs : List Char} {st : ScanState}
    (h : allWs cs = true) (hstr : st.inString = false) :
    scanList st cs = .ok (bump st (utf8Len cs)) := by
  refine scan_inertList (fun c hc => wsChar_inert ?_) hstr
  exact List.all_eq_true.mp h c hc

/-- JSON literal tokens outside strings only advance the byte index. -/
theorem scan_lit {cs : List Char} {st : ScanState}
    (h : cs.all litChar = true) (hstr : st.inString = false) :
    scanList st cs = .ok (bump st (utf8Len cs)) := by
  refine scan_inertList (fun c hc => litChar_inert ?_) hstr
  exact List.all_eq_true.mp h c hc

theorem scan_congr_bump {st : ScanState} {xs : List Char} {m n : Nat}
    (h : scanList st xs = .ok (bump st m)) (e : m = n) :
    scanList st xs = .ok (bump st n) := by rw [← e]; exact h

theorem w_bs : utf8Width '\\' = 1 := by decide

theorem w_q : utf8Width '"' = 1 := by decide

theorem w_ob : utf8Width '{' = 1 := by decide

theorem w_cb : utf8Width '}' = 1 := by decide

theorem w_lb : utf8Width '[' = 1 := by decide

theorem w_rb : utf8Width ']' = 1 := by decide

theorem w_colon : utf8Width ':' = 1 := by decide

theorem w_comma : utf8Width ',' = 1 := by decide

theorem bump_shift {i0 d0 : Nat} {istr esc : Bool} {cur : Option Nat}
    {rng : List DigestRange} (m n : Nat) :
    bump (⟨i0, d0, istr, esc, cur, rng⟩ : ScanState) (m + n) =
      bump (⟨i0 + m, d0, istr, esc, cur, rng⟩ : ScanState) n := by
  simp [bump]; omega

/-- String-literal bodies are scanned without touching depth, start or ranges. -/
theorem scan_serItems : ∀ (items : List SItem) (st : ScanState),
    items.all wfSItem = true → st.inString = true → st.escape = false →
    scanList st (serItems items) = .ok (bump st (utf8Len (serItems items)))
  | [], st, _, _, _ => by simp [serItems, scanList, utf8Len, bump_zero]
  | i :: rest, st, hwf, hstr, hesc => by
    have hwf' : wfSItem i = true ∧ rest.all wfSItem = true := by simpa using hwf
    obtain ⟨i0, d0, istr, esc, cur, rng⟩ := st
    simp only at hstr hesc
    subst hstr; subst hesc
    cases i with
    | safe c =>
      have hc : ¬(c = '"') ∧ ¬(c = '\\') := by simpa [wfSItem] using hwf'.1
      have hstep : scanStep ⟨i0, d0, true, false, cur, rng⟩ c =
          .ok ⟨i0 + utf8Width c, d0, true, false, cur, rng⟩ := by
        simp [scanStep, hc.1, hc.2]
      have hrest := scan_serItems rest ⟨i0 + utf8Width c, d0, true, false, cur, rng⟩
        hwf'.2 rfl rfl
      have hmain : scanList ⟨i0, d0, true, false, cur, rng⟩ (c :: serItems rest) =
          .ok (bump ⟨i0, d0, true, false, cur, rng⟩
            (utf8Width c + utf8Len (serItems rest))) := by
        rw [bump_shift]
        exact scanList_cons_ok hstep hrest
      exact scan_congr_bump hmain (by simp [serItems, serSItem, utf8Len_append, utf8Len])
    | esc c =>
      have hstep1 : scanStep ⟨i0, d0, true, false, cur, rng⟩ '\\' =
          .ok ⟨i0 + 1, d0, true, true, cur, rng⟩ := by
        simp [scanStep, w_bs]
      have hstep2 : scanStep ⟨i0 + 1, d0, true, true, cur, rng⟩ c =
          .ok ⟨i0 + 1 + utf8Width c, d0, true, false, cur, rng⟩ := by
        simp [scanStep]
      have hrest := scan_serItems rest ⟨i0 + 1 + utf8Width c, d0, true, false, cur, rng⟩
        hwf'.2 rfl rfl
      have hmain : scanList ⟨i0, d0, true, false, cur, rng⟩ ('\\' :: c :: serItems rest) =
          .ok (bump ⟨i0, d0, true, false, cur, rng⟩
            (1 + (utf8Width c + utf8Len (serItems rest)))) := by
        rw [bump_shift]
        refine scanList_cons_ok hstep1 ?_
        rw [bump_shift]
        exact scanList_cons_ok hstep2 hrest
      refine scan_congr_bump hmain ?_
      simp [serItems, serSItem, utf8Len_append, utf8Len, w_bs]

/-- A whole JSON string literal returns the scanner to the outside state,
advancing only the byte index. -/
theorem scan_serStr (items : List SItem) (st : ScanState)
    (hwf : items.all wfSItem = true) (hstr : st.inString = false)
    (hesc : st.escape = false) :
    scanList st (serStr items) = .ok (bump st (utf8Len (serStr items))) := by
  obtain ⟨i0, d0, istr, esc, cur, rng⟩ := st
  simp only at hstr hesc
  subst hstr; subst hesc
  have hstep1 : scanStep ⟨i0, d0, false, false, cur, rng⟩ '"' =
      .ok ⟨i0 + 1, d0, true, false, cur, rng⟩ := by
    simp [scanStep, w_q]
  have hmid := scan_serItems items ⟨i0 + 1, d0, true, false, cur, rng⟩ hwf rfl rfl
  have hstep2 : ∀ j, scanStep (⟨j, d0, true, false, cur, rng⟩ : ScanState) '"' =
      .ok ⟨j + 1, d0, false, false, cur, rng⟩ := by
    intro j
    have hq : ¬(('"' : Char) = '\\') := by decide
    simp [scanStep, hq, w_q]
  have hmain : scanList ⟨i0, d0, false, false, cur, rng⟩ ('"' :: (serItems items ++ ['"'])) =
      .ok (bump ⟨i0, d0, false, false, cur, rng⟩
        (1 + (utf8Len (serItems items) + 1))) := by
    rw [bump_shift]
    refine scanList_cons_ok hstep1 ?_
    rw [bump_shift]
    refine scanList_chain hmid ?_
    show scanList (bump ⟨i0 + 1 + utf8Len (serItems items), d0, true, false, cur, rng⟩ 0)
      ['"'] = _
    rw [bump_zero]
    refine scanList_cons_ok (hstep2 _) ?_
    show scanList (⟨i0 + 1 + utf8Len (serItems items) + 1, d0, false, false, cur, rng⟩ :
      ScanState) [] = _
    simp [scanList, bump]
  refine scan_congr_bump hmain ?_
  simp [serStr, utf8Len_append, utf8Len, w_q]

theorem scan_bump_chain {st : ScanState} {xs ys : List Char} {m n k : Nat}
    (h1 : scanList st xs = .ok (bump st m))
    (h2 : scanList (bump st m) ys = .ok (bump (bump st m) n))
    (e : m + n = k) :
    scanList st (xs ++ ys) = .ok (bump st k) := by
  rw [← e, ← bump_bump]
  exact scanList_chain h1 h2

theorem scan_bump_cons {st : ScanState} {c : Char} {ys : List Char} {n k : Nat}
    (h1 : scanStep st c = .ok (bump st (utf8Width c)))
    (h2 : scanList (bump st (utf8Width c)) ys = .ok (bump (bump st (utf8Width c)) n))
    (e : utf8Width c + n = k) :
    scanList st (c :: ys) = .ok (bump st k) := by
  rw [← e, ← bump_bump]
  exact scanList_cons_ok h1 h2

theorem scan_inert1 {st : ScanState} {c : Char} (hstr : st.inString = false)
    (h1 : c ≠ '"') (h2 : c ≠ '{') (h3 : c ≠ '}') :
    scanList st [c] = .ok (bump st (utf8Width c)) := by
  refine scanList_cons_ok (scan_inertChar hstr h1 h2 h3) ?_
  simp [scanList]

/-! The central grammar lemmas: scanning one serialized JSON value from a
state outside strings at depth ≥ 1 (depth plus the nesting of the value
staying below the u32 saturation bound) only advances the byte index. -/

mutual

theorem scan_serVal : ∀ (v : JVal) (st : ScanState), wfVal v = true →
    st.inString = false → st.escape = false → 1 ≤ st.depth →
    st.depth + jdepthVal v ≤ UMAX →
    scanList st (serVal v) = .ok (bump st (utf8Len (serVal v)))
  | .jstr items, st, hwf, hstr, hesc, _, _ => by
    have hwf' : items.all wfSItem = true := by simpa [wfVal] using hwf
    exact scan_serStr items st hwf' hstr hesc
  | .jlit cs, st, hwf, hstr, _, _, _ => by
    have hall : ∀ c ∈ cs, litChar c = true := by
      simp [wfVal] at hwf
      exact hwf.2
    exact scan_inertList (fun c hc => litChar_inert (hall c hc)) hstr
  | .jarr ws a, st, hwf, hstr, hesc, hd, hm => by
    have hw : allWs ws = true ∧ wfArr a = true := by simpa [wfVal] using hwf
    have hma : st.depth + jdepthArr a ≤ UMAX := by simpa [jdepthVal] using hm
    show scanList st ('[' :: (ws ++ (serArr a ++ [']']))) =
      .ok (bump st (utf8Len (serVal (.jarr ws a))))
    refine scan_bump_cons (scan_inertChar hstr (by decide) (by decide) (by decide))
      (scan_bump_chain (scan_ws hw.1 hstr)
        (scan_bump_chain (scan_serArr a _ hw.2 hstr hesc hd hma)
          (scan_inert1 hstr (by decide) (by decide) (by decide)) rfl) rfl) ?_
    simp [serVal, utf8Len_append, utf8Len, w_lb, w_rb] <;> omega
  | .jobj ws ms, st, hwf, hstr, hesc, hd, hm => by
    have hw : allWs ws = true ∧ wfMembers ms = true := by simpa [wfVal] using hwf
    have hjd : st.depth + (jdepthMembers ms + 1) ≤ UMAX := by simpa [jdepthVal] using hm
    obtain ⟨i0, d0, istr, esc, cur, rng⟩ := st
    have hstr' : istr = false := hstr
    have hesc' : esc = false := hesc
    have hd' : 1 ≤ d0 := hd
    have hjd' : d0 + (jdepthMembers ms + 1) ≤ UMAX := hjd
    subst hstr'; subst hesc'
    have hU : UMAX = 4294967295 := rfl
    have hd0 : ¬(d0 = 0) := by omega
    have hmin : min (d0 + 1) UMAX = d0 + 1 := by omega
    have hstep1 : scanStep ⟨i0, d0, false, false, cur, rng⟩ '{' =
        .ok ⟨i0 + 1, d0 + 1, false, false, cur, rng⟩ := by
      simp [scanStep, hd0, w_ob, hmin]
    have hws : scanList ⟨i0 + 1, d0 + 1, false, false, cur, rng⟩ ws =
        .ok (bump ⟨i0 + 1, d0 + 1, false, false, cur, rng⟩ (utf8Len ws)) :=
      scan_ws hw.1 rfl
    have hmid := scan_serMembers ms
      ⟨i0 + 1 + utf8Len ws, d0 + 1, false, false, cur, rng⟩ hw.2 rfl rfl
      (by show 1 ≤ d0 + 1; omega) (by show d0 + 1 + jdepthMembers ms ≤ UMAX; omega)
    have hne1 : ¬(d0 + 1 = 0) := by omega
    have hne2 : ¬(d0 + 1 = 1) := by omega
    have hstep2 : scanStep ⟨i0 + 1 + utf8Len ws + utf8Len (serMembers ms), d0 + 1,
        false, false, cur, rng⟩ '}' =
        .ok ⟨i0 + 1 + utf8Len ws + utf8Len (serMembers ms) + 1, d0,
          false, false, cur, rng⟩ := by
      simp [scanStep, hne1, hne2, w_cb]
    have hmain : scanList ⟨i0, d0, false, false, cur, rng⟩
        ('{' :: (ws ++ (serMembers ms ++ ['}']))) =
        .ok (bump ⟨i0, d0, false, false, cur, rng⟩
          (1 + (utf8Len ws + (utf8Len (serMembers ms) + 1)))) := by
      rw [bump_shift]
      refine scanList_cons_ok hstep1 ?_
      rw [bump_shift]
      refine scanList_chain hws ?_
      show scanList ⟨i0 + 1 + utf8Len ws, d0 + 1, false, false, cur, rng⟩
        (serMembers ms ++ ['}']) =
        .ok (bump ⟨i0 + 1 + utf8Len ws, d0, false, false, cur, rng⟩
          (utf8Len (serMembers ms) + 1))
      rw [bump_shift]
      refine scanList_chain hmid ?_
      show scanList ⟨i0 + 1 + utf8Len ws + utf8Len (serMembers ms), d0 + 1,
        false, false, cur, rng⟩ ['}'] =
        .ok (bump ⟨i0 + 1 + utf8Len ws + utf8Len (serMembers ms), d0,
          false, false, cur, rng⟩ 1)
      refine scanList_cons_ok hstep2 ?_
      simp [scanList, bump]
    refine scan_congr_bump hmain ?_
    simp [serVal, utf8Len_append, utf8Len, w_ob, w_cb] <;> omega

theorem scan_serArr : ∀ (a : JArr) (st : ScanState), wfArr a = true →
    st.inString = false → st.escape = false → 1 ≤ st.depth →
    st.depth + jdepthArr a ≤ UMAX →
    scanList st (serArr a) = .ok (bump st (utf8Len (serArr a)))
  | .nil, st, _, _, _, _, _ => by simp [serArr, scanList, utf8Len, bump_zero]
  | .cons ws1 v ws2 rest, st, hwf, hstr, hesc, hd, hm => by
    have hv : ((allWs ws1 = true ∧ wfVal v = true) ∧ allWs ws2 = true) ∧
        wfArr rest = true := by simpa [wfArr] using hwf
    have hmv : st.depth + jdepthVal v ≤ UMAX := by simp [jdepthArr] at hm; omega
    have hmr : st.depth + jdepthArr rest ≤ UMAX := by simp [jdepthArr] at hm; omega
    show scanList st (ws1 ++ (serVal v ++ (ws2 ++ serArrTail rest))) =
      .ok (bump st (utf8Len (serArr (.cons ws1 v ws2 rest))))
    refine scan_bump_chain (scan_ws hv.1.1.1 hstr)
      (scan_bump_chain (scan_serVal v _ hv.1.1.2 hstr hesc hd hmv)
        (scan_bump_chain (scan_ws hv.1.2 hstr)
          (scan_serArrTail rest _ hv.2 hstr hesc hd hmr) rfl) rfl) ?_
    simp [serArr, utf8Len_append] <;> omega

theorem scan_serArrTail : ∀ (a : JArr) (st : ScanState), wfArr a = true →
    st.inString = false → st.escape = false → 1 ≤ st.depth →
    st.depth + jdepthArr a ≤ UMAX →
    scanList st (serArrTail a) = .ok (bump st (utf8Len (serArrTail a)))
  | .nil, st, _, _, _, _, _ => by simp [serArrTail, scanList, utf8Len, bump_zero]
  | .cons ws1 v ws2 rest, st, hwf, hstr, hesc, hd, hm => by
    have hv : ((allWs ws1 = true ∧ wfVal v = true) ∧ allWs ws2 = true) ∧
        wfArr rest = true := by simpa [wfArr] using hwf
    have hmv : st.depth + jdepthVal v ≤ UMAX := by simp [jdepthArr] at hm; omega
    have hmr : st.depth + jdepthArr rest ≤ UMAX := by simp [jdepthArr] at hm; omega
    show scanList st (',' :: (ws1 ++ (serVal v ++ (ws2 ++ serArrTail rest)))) =
      .ok (bump st (utf8Len (serArrTail (.cons ws1 v ws2 rest))))
    refine scan_bump_cons (scan_inertChar hstr (by decide) (by decide) (by decide))
      (scan_bump_chain (scan_ws hv.1.1.1 hstr)
        (scan_bump_chain (scan_serVal v _ hv.1.1.2 hstr hesc hd hmv)
          (scan_bump_chain (scan_ws hv.1.2 hstr)
            (scan_serArrTail rest _ hv.2 hstr hesc hd hmr) rfl) rfl) rfl) ?_
    simp [serArrTail, utf8Len_append, utf8Len, w_comma] <;> omega

theorem scan_serMembers : ∀ (ms : JMembers) (st : ScanState), wfMembers ms = true →
    st.inString = false → st.escape = false → 1 ≤ st.depth →
    st.depth + jdepthMembers ms ≤ UMAX →
    scanList st (serMembers ms) = .ok (bump st (utf8Len (serMembers ms)))
  | .nil, st, _, _, _, _, _ => by simp [serMembers, scanList, utf8Len, bump_zero]
  | .cons ws1 k ws2 ws3 v ws4 rest, st, hwf, hstr, hesc, hd, hm => by
    have hk : (((((allWs ws1 = true ∧ k.all wfSItem = true) ∧ allWs ws2 = true) ∧
        allWs ws3 = true) ∧ wfVal v = true) ∧ allWs ws4 = true) ∧
        wfMembers rest = true := by simpa [wfMembers] using hwf
    have hmv : st.depth + jdepthVal v ≤ UMAX := by simp [jdepthMembers] at hm; omega
    have hmr : st.depth + jdepthMembers rest ≤ UMAX := by
      simp [jdepthMembers] at hm; omega
    show scanList st (ws1 ++ (serStr k ++ (ws2 ++ (':' :: (ws3 ++ (serVal v ++
        (ws4 ++ serMembersTail rest))))))) =
      .ok (bump st (utf8Len (serMembers (.cons ws1 k ws2 ws3 v ws4 rest))))
    refine scan_bump_chain (scan_ws hk.1.1.1.1.1.1 hstr)
      (scan_bump_chain (scan_serStr k _ hk.1.1.1.1.1.2 hstr hesc)
        (scan_bump_chain (scan_ws hk.1.1.1.1.2 hstr)
          (scan_bump_cons (scan_inertChar hstr (by decide) (by decide) (by decide))
            (scan_bump_chain (scan_ws hk.1.1.1.2 hstr)
              (scan_bump_chain (scan_serVal v _ hk.1.1.2 hstr hesc hd hmv)
                (scan_bump_chain (scan_ws hk.1.2 hstr)
                  (scan_serMembersTail rest _ hk.2 hstr hesc hd hmr)
                  rfl) rfl) rfl) rfl) rfl) rfl) ?_
    simp [serMembers, utf8Len_append, utf8Len, w_colon] <;> omega

theorem scan_serMembersTail : ∀ (ms : JMembers) (st : ScanState), wfMembers ms = true →
    st.inString = false → st.escape = false → 1 ≤ st.depth →
    st.depth + jdepthMembers ms ≤ UMAX →
    scanList st (serMembersTail ms) = .ok (bump st (utf8Len (serMembersTail ms)))
  | .nil, st, _, _, _, _, _ => by simp [serMembersTail, scanList, utf8Len, bump_zero]
  | .cons ws1 k ws2 ws3 v ws4 rest, st, hwf, hstr, hesc, hd, hm => by
    have hk : (((((allWs ws1 = true ∧ k.all wfSItem = true) ∧ allWs ws2 = true) ∧
        allWs ws3 = true) ∧ wfVal v = true) ∧ allWs ws4 = true) ∧
        wfMembers rest = true := by simpa [wfMembers] using hwf
    have hmv : st.depth + jdepthVal v ≤ UMAX := by simp [jdepthMembers] at hm; omega
    have hmr : st.depth + jdepthMembers rest ≤ UMAX := by
      simp [jdepthMembers] at hm; omega
    show scanList st (',' :: (ws1 ++ (serStr k ++ (ws2 ++ (':' :: (ws3 ++ (serVal v ++
        (ws4 ++ serMembersTail rest)))))))) =
      .ok (bump st (utf8Len (serMembersTail (.cons ws1 k ws2 ws3 v ws4 rest))))
    refine scan_bump_cons (scan_inertChar hstr (by decide) (by decide) (by decide))
      (scan_bump_chain (scan_ws hk.1.1.1.1.1.1 hstr)
        (scan_bump_chain (scan_serStr k _ hk.1.1.1.1.1.2 hstr hesc)
          (scan_bump_chain (scan_ws hk.1.1.1.1.2 hstr)
            (scan_bump_cons (scan_inertChar hstr (by decide) (by decide) (by decide))
              (scan_bump_chain (scan_ws hk.1.1.1.2 hstr)
                (scan_bump_chain (scan_serVal v _ hk.1.1.2 hstr hesc hd hmv)
                  (scan_bump_chain (scan_ws hk.1.2 hstr)
                    (scan_serMembersTail rest _ hk.2 hstr hesc hd hmr)
                    rfl) rfl) rfl) rfl) rfl) rfl) rfl) ?_
    simp [serMembersTail, utf8Len_append, utf8Len, w_comma, w_colon] <;> omega
end

/-- Scanning one serialized top-level object from an idle depth-0 state
records exactly one range covering the object. -/
theorem scan_topObj (o : TopObj) (st : ScanState)
    (hwo : allWs o.ws = true) (hwm : wfMembers o.members = true)
    (hdep : jdepthMembers o.members + 1 ≤ UMAX)
    (hstr : st.inString = false) (hesc : st.escape = false)
    (hd : st.depth = 0) (hcs : st.currentStart = none) :
    scanList st (serObj o) = .ok { st with
      idx := st.idx + utf8Len (serObj o)
      ranges := st.ranges ++ [⟨st.idx, st.idx + utf8Len (serObj o)⟩] } := by
  obtain ⟨ws, ms⟩ := o
  have hwo' : allWs ws = true := hwo
  have hwm' : wfMembers ms = true := hwm
  have hdep' : jdepthMembers ms + 1 ≤ UMAX := hdep
  obtain ⟨i0, d0, istr, esc, cur, rng⟩ := st
  have h1 : istr = false := hstr
  have h2 : esc = false := hesc
  have h3 : d0 = 0 := hd
  have h4 : cur = none := hcs
  subst h1; subst h2; subst h3; subst h4
  have hU : UMAX = 4294967295 := rfl
  have hW : utf8Len (serObj ⟨ws, ms⟩) =
      1 + (utf8Len ws + (utf8Len (serMembers ms) + 1)) := by
    simp [serObj, serVal, utf8Len_append, utf8Len_cons, utf8Len, w_ob, w_cb] <;> omega
  rw [hW]
  show scanList _ ('{' :: (ws ++ (serMembers ms ++ ['}']))) = _
  have hmin : min (0 + 1) UMAX = 1 := by omega
  have hstep1 : scanStep ⟨i0, 0, false, false, none, rng⟩ '{' =
      .ok ⟨i0 + 1, 1, false, false, some i0, rng⟩ := by
    simp [scanStep, w_ob, hmin]
  have hws : scanList ⟨i0 + 1, 1, false, false, some i0, rng⟩ ws =
      .ok (bump ⟨i0 + 1, 1, false, false, some i0, rng⟩ (utf8Len ws)) :=
    scan_ws hwo' rfl
  have hmid := scan_serMembers ms
    ⟨i0 + 1 + utf8Len ws, 1, false, false, some i0, rng⟩ hwm' rfl rfl
    (Nat.le_refl 1) (by show 1 + jdepthMembers ms ≤ UMAX; omega)
  refine scanList_cons_ok hstep1 ?_
  refine scanList_chain hws ?_
  show scanList ⟨i0 + 1 + utf8Len ws, 1, false, false, some i0, rng⟩
    (serMembers ms ++ ['}']) = _
  refine scanList_chain hmid ?_
  show scanList ⟨i0 + 1 + utf8Len ws + utf8Len (serMembers ms), 1, false, false,
    some i0, rng⟩ ['}'] = _
  have hstep2 : scanStep
      ⟨i0 + 1 + utf8Len ws + utf8Len (serMembers ms), 1, false, false, some i0, rng⟩
      '}' =
      .ok ⟨i0 + 1 + utf8Len ws + utf8Len (serMembers ms) + 1, 0, false, false, none,
        rng ++ [⟨i0, i0 + 1 + utf8Len ws + utf8Len (serMembers ms) + 1⟩]⟩ := by
    simp [scanStep, w_cb]
  refine scanList_cons_ok hstep2 ?_
  show Except.ok _ = Except.ok _
  simp only [scanList]
  rw [show i0 + (1 + (utf8Len ws + (utf8Len (serMembers ms) + 1))) =
    i0 + 1 + utf8Len ws + utf8Len (serMembers ms) + 1 from by omega]

theorem scan_buildInput : ∀ (parts : List (TopObj × List Char)) (st : ScanState),
    WfParts parts → st.inString = false → st.escape = false →
    st.depth = 0 → st.currentStart = none →
    scanList st (buildInput parts) = .ok { st with
      idx := st.idx + utf8Len (buildInput parts)
      ranges := st.ranges ++ expectedRanges st.idx parts }
  | [], st, _, _, _, _, _ => by
    obtain ⟨i0, d0, istr, esc, cur, rng⟩ := st
    simp [buildInput, scanList, utf8Len, expectedRanges]
  | (o, ws) :: rest, st, hall, hstr, hesc, hd, hcs => by
    have hp := hall (o, ws) (by simp)
    have hA := scan_topObj o st hp.1 hp.2.1 hp.2.2.2 hstr hesc hd hcs
    set S1 : ScanState := { st with
      idx := st.idx + utf8Len (serObj o)
      ranges := st.ranges ++ [⟨st.idx, st.idx + utf8Len (serObj o)⟩] } with hS1
    have hB : scanList S1 ws = .ok (bump S1 (utf8Len ws)) := scan_ws hp.2.2.1 hstr
    have hC := scan_buildInput rest (bump S1 (utf8Len ws))
      (fun p hp' => hall p (by simp [hp'])) hstr hesc hd hcs
    show scanList st (serObj o ++ (ws ++ buildInput rest)) = _
    refine scanList_chain hA (scanList_chain hB ?_)
    rw [hC]
    congr 1
    obtain ⟨i0, d0, istr, esc, cur, rng⟩ := st
    simp [hS1, bump, buildInput, expectedRanges, utf8Len_append, List.append_assoc]
    omega

theorem serObj_len_ge (o : TopObj) : 2 ≤ utf8Len (serObj o) := by
  obtain ⟨ws, ms⟩ := o
  have : utf8Len (serObj ⟨ws, ms⟩) =
      1 + (utf8Len ws + (utf8Len (serMembers ms) + 1)) := by
    simp [serObj, serVal, utf8Len_append, utf8Len_cons, utf8Len, w_ob, w_cb] <;> omega
  omega

theorem er_length : ∀ (parts : List (TopObj × List Char)) (i : Nat),
    (expectedRanges i parts).length = parts.length
  | [], _ => rfl
  | (o, ws) :: rest, i => by
    simp [expectedRanges, er_length rest]

theorem er_mem_facts : ∀ (parts : List (TopObj × List Char)) (i : Nat)
    (r : DigestRange), r ∈ expectedRanges i parts →
    i ≤ r.start ∧ r.start + 2 ≤ r.stop ∧ r.stop ≤ i + utf8Len (buildInput parts)
  | [], i, r, hr => by simp [expectedRanges] at hr
  | (o, ws) :: rest, i, r, hr => by
    have hW := serObj_len_ge o
    simp only [expectedRanges, List.mem_cons] at hr
    rcases hr with hr | hr
    · subst hr
      refine ⟨Nat.le_refl _, by simp <;> omega, ?_⟩
      simp [buildInput, utf8Len_append] <;> omega
    · have := er_mem_facts rest (i + utf8Len (serObj o) + utf8Len ws) r hr
      simp [buildInput, utf8Len_append] <;> omega

theorem er_pairwise : ∀ (parts : List (TopObj × List Char)) (i : Nat),
    List.Pairwise (fun a b : DigestRange => a.start < b.start ∧ a.stop ≤ b.start)
      (expectedRanges i parts)
  | [], _ => List.Pairwise.nil
  | (o, ws) :: rest, i => by
    have hW := serObj_len_ge o
    refine List.Pairwise.cons ?_ (er_pairwise rest _)
    intro b hb
    have := er_mem_facts rest (i + utf8Len (serObj o) + utf8Len ws) b hb
    constructor
    · show i < b.start
      omega
    · show i + utf8Len (serObj o) ≤ b.start
      omega

/-- Full scanner run on whitespace followed by concatenated objects. -/
theorem find_buildInput (lead : List Char) (parts : List (TopObj × List Char))
    (hlead : allWs lead = true) (hparts : WfParts parts) :
    find_concatenated_json_ranges (lead ++ buildInput parts) =
      .ok (expectedRanges (utf8Len lead) parts) := by
  have hws : scanList initState lead = .ok (bump initState (utf8Len lead)) :=
    scan_ws hlead rfl
  have hbi := scan_buildInput parts (bump initState (utf8Len lead)) hparts rfl rfl rfl rfl
  have hall := scanList_chain hws hbi
  unfold find_concatenated_json_ranges
  rw [hall]
  simp [bump, initState]

theorem ser_deepVal : ∀ n, serVal (deepVal n) = repB n ++ '1' :: List.replicate n '}'
  | 0 => rfl
  | n + 1 => by
    show serVal (.jobj [] (.cons [] [.safe 'a'] [] [] (deepVal n) [] .nil)) = _
    simp only [serVal, serMembers, serMembersTail, serStr, serItems, serSItem,
      repB, ser_deepVal n, List.replicate_succ', List.nil_append]
    simp [List.append_assoc]

theorem wf_deepVal : ∀ n, wfVal (deepVal n) = true
  | 0 => by decide
  | n + 1 => by
    show wfVal (.jobj [] (.cons [] [.safe 'a'] [] [] (deepVal n) [] .nil)) = true
    simp [wfVal, wfMembers, wf_deepVal n, wfSItem, allWs]

theorem scanList_cons_err {st : ScanState} {c : Char} {cs : List Char} {e : ScanError}
    (h : scanStep st c = .error e) : scanList st (c :: cs) = .error e := by
  simp [scanList, h]

theorem scanList_chain_err {xs : List Char} {st st1 : ScanState} {ys : List Char}
    {e : ScanError} (h1 : scanList st xs = .ok st1) (h2 : scanList st1 ys = .error e) :
    scanList st (xs ++ ys) = .error e := by
  induction xs generalizing st with
  | nil =>
    simp [scanList] at h1
    simpa [h1] using h2
  | cons c cs ih =>
    simp only [scanList] at h1
    cases h : scanStep st c with
    | error e' => rw [h] at h1; exact absurd h1 (by simp)
    | ok stm =>
      rw [h] at h1
      have := ih h1
      simp [scanList, h, this]

/-- Scanning `n` opening blocks from depth `d0 ≥ 1` saturates the depth. -/
theorem scan_repB : ∀ (n i0 d0 : Nat) (cur : Option Nat) (rng : List DigestRange),
    1 ≤ d0 → d0 ≤ UMAX →
    scanList ⟨i0, d0, false, false, cur, rng⟩ (repB n) =
      .ok ⟨i0 + 5 * n, min (d0 + n) UMAX, false, false, cur, rng⟩
  | 0, i0, d0, cur, rng, h1, h2 => by
    have hU : UMAX = 4294967295 := rfl
    have he : (⟨i0 + 5 * 0, min (d0 + 0) UMAX, false, false, cur, rng⟩ : ScanState) =
        ⟨i0, d0, false, false, cur, rng⟩ := by
      simp
      omega
    rw [he]
    rfl
  | n + 1, i0, d0, cur, rng, h1, h2 => by
    have hU : UMAX = 4294967295 := rfl
    have hd0 : ¬(d0 = 0) := by omega
    have hs1 : scanStep ⟨i0, d0, false, false, cur, rng⟩ '{' =
        .ok ⟨i0 + 1, min (d0 + 1) UMAX, false, false, cur, rng⟩ := by
      simp [scanStep, hd0, w_ob]
    have hs2 : scanStep ⟨i0 + 1, min (d0 + 1) UMAX, false, false, cur, rng⟩ '"' =
        .ok ⟨i0 + 1 + 1, min (d0 + 1) UMAX, true, false, cur, rng⟩ := by
      simp [scanStep, w_q]
    have hs3 : scanStep ⟨i0 + 1 + 1, min (d0 + 1) UMAX, true, false, cur, rng⟩ 'a' =
        .ok ⟨i0 + 1 + 1 + 1, min (d0 + 1) UMAX, true, false, cur, rng⟩ := by
      have h3 : ¬(('a' : Char) = '\\') := by decide
      have h4 : ¬(('a' : Char) = '"') := by decide
      have h5 : utf8Width 'a' = 1 := by decide
      simp [scanStep, h3, h4, h5]
    have hs4 : scanStep ⟨i0 + 1 + 1 + 1, min (d0 + 1) UMAX, true, false, cur, rng⟩ '"' =
        .ok ⟨i0 + 1 + 1 + 1 + 1, min (d0 + 1) UMAX, false, false, cur, rng⟩ := by
      have h3 : ¬(('"' : Char) = '\\') := by decide
      simp [scanStep, h3, w_q]
    have hs5 : scanStep ⟨i0 + 1 + 1 + 1 + 1, min (d0 + 1) UMAX, false, false, cur, rng⟩ ':' =
        .ok ⟨i0 + 1 + 1 + 1 + 1 + 1, min (d0 + 1) UMAX, false, false, cur, rng⟩ := by
      have h3 : ¬((':' : Char) = '"') := by decide
      have h4 : ¬((':' : Char) = '{') := by decide
      have h5 : ¬((':' : Char) = '}') := by decide
      simp [scanStep, h3, h4, h5, w_colon]
    have hih := scan_repB n (i0 + 1 + 1 + 1 + 1 + 1) (min (d0 + 1) UMAX) cur rng
      (by omega) (by omega)
    have he : (⟨i0 + 5 * (n + 1), min (d0 + (n + 1)) UMAX, false, false, cur, rng⟩ :
        ScanState) = ⟨i0 + 1 + 1 + 1 + 1 + 1 + 5 * n, min (min (d0 + 1) UMAX + n) UMAX,
          false, false, cur, rng⟩ := by
      simp
      omega
    show scanList _ ('{' :: '"' :: 'a' :: '"' :: ':' :: repB n) = _
    rw [he]
    exact scanList_cons_ok hs1 (scanList_cons_ok hs2 (scanList_cons_ok hs3
      (scanList_cons_ok hs4 (scanList_cons_ok hs5 hih))))

/-- Scanning `k` closing braces while the depth stays above `k`. -/
theorem scan_closes : ∀ (k i0 d0 : Nat) (cur : Option Nat) (rng : List DigestRange),
    k + 1 ≤ d0 →
    scanList ⟨i0, d0, false, false, cur, rng⟩ (List.replicate k '}') =
      .ok ⟨i0 + k, d0 - k, false, false, cur, rng⟩
  | 0, i0, d0, cur, rng, h1 => by
    have he : (⟨i0 + 0, d0 - 0, false, false, cur, rng⟩ : ScanState) =
        ⟨i0, d0, false, false, cur, rng⟩ := by simp
    rw [he]
    rfl
  | k + 1, i0, d0, cur, rng, h1 => by
    have hd0 : ¬(d0 = 0) := by omega
    have hd1 : ¬(d0 = 1) := by omega
    have hs : scanStep ⟨i0, d0, false, false, cur, rng⟩ '}' =
        .ok ⟨i0 + 1, d0 - 1, false, false, cur, rng⟩ := by
      simp [scanStep, hd0, hd1, w_cb]
    have hih := scan_closes k (i0 + 1) (d0 - 1) cur rng (by omega)
    have he : (⟨i0 + (k + 1), d0 - (k + 1), false, false, cur, rng⟩ : ScanState) =
        ⟨i0 + 1 + k, d0 - 1 - k, false, false, cur, rng⟩ := by
      simp
      omega
    show scanList _ ('}' :: List.replicate k '}') = _
    rw [he]
    exact scanList_cons_ok hs hih

theorem scanList_cons_ok_err {st st' : ScanState} {c : Char} {cs : List Char}
    {e : ScanError} (h1 : scanStep st c = .ok st') (h2 : scanList st' cs = .error e) :
    scanList st (c :: cs) = .error e := by
  simp [scanList, h1, h2]

theorem find_of_scan_err {input : List Char} {e : ScanError}
    (h : scanList initState input = .error e) :
    find_concatenated_json_ranges input = .error e := by
  unfold find_concatenated_json_ranges
  rw [h]

/-- The scanner fails on the well-formed object nested 2^32 braces deep:
the u32 depth counter saturates on the way up, so the closing braces
underrun it and the last one is reported as unmatched. -/
theorem scan_deep_fails :
    find_concatenated_json_ranges (serVal (deepVal 4294967296)) =
      .error (.unmatchedClosingBrace 25769803776) := by
  have hU : UMAX = 4294967295 := rfl
  rw [ser_deepVal]
  rw [show (4294967296 : Nat) = 4294967295 + 1 from rfl]
  have hs1 : scanStep initState '{' = .ok ⟨1, 1, false, false, some 0, []⟩ := rfl
  have hs2 : scanStep ⟨1, 1, false, false, some 0, []⟩ '"' =
      .ok ⟨2, 1, true, false, some 0, []⟩ := rfl
  have hs3 : scanStep ⟨2, 1, true, false, some 0, []⟩ 'a' =
      .ok ⟨3, 1, true, false, some 0, []⟩ := rfl
  have hs4 : scanStep ⟨3, 1, true, false, some 0, []⟩ '"' =
      .ok ⟨4, 1, false, false, some 0, []⟩ := rfl
  have hs5 : scanStep ⟨4, 1, false, false, some 0, []⟩ ':' =
      .ok ⟨5, 1, false, false, some 0, []⟩ := rfl
  have hopen := scan_repB 4294967295 5 1 (some 0) [] (by omega) (by omega)
  have he1 : (⟨5 + 5 * 4294967295, min (1 + 4294967295) UMAX, false, false, some 0, []⟩ :
      ScanState) = ⟨21474836480, 4294967295, false, false, some 0, []⟩ := by
    simp
    omega
  rw [he1] at hopen
  have hone : scanStep ⟨21474836480, 4294967295, false, false, some 0, []⟩ '1' =
      .ok ⟨21474836481, 4294967295, false, false, some 0, []⟩ := rfl
  have hcl := scan_closes 4294967294 21474836481 4294967295 (some 0) [] (by omega)
  have he2 : (⟨21474836481 + 4294967294, 4294967295 - 4294967294, false, false,
      some 0, []⟩ : ScanState) = ⟨25769803775, 1, false, false, some 0, []⟩ := by
    simp
  rw [he2] at hcl
  have hpush : scanStep ⟨25769803775, 1, false, false, some 0, []⟩ '}' =
      .ok ⟨25769803776, 0, false, false, none, [⟨0, 25769803776⟩]⟩ := rfl
  have herr : scanStep ⟨25769803776, 0, false, false, none, [⟨0, 25769803776⟩]⟩ '}' =
      .error (.unmatchedClosingBrace 25769803776) := rfl
  have hsplit : List.replicate (4294967295 + 1) '}' =
      List.replicate 4294967294 '}' ++ ['}', '}'] := by
    rw [show (4294967295 + 1 : Nat) = 4294967294 + 2 from rfl, List.replicate_add]
    rfl
  have hscan : scanList initState
      (repB (4294967295 + 1) ++ '1' :: List.replicate (4294967295 + 1) '}') =
      .error (.unmatchedClosingBrace 25769803776) := by
    show scanList initState
      ('{' :: '"' :: 'a' :: '"' :: ':' ::
        (repB 4294967295 ++ '1' :: List.replicate (4294967295 + 1) '}')) = _
    refine scanList_cons_ok_err hs1 (scanList_cons_ok_err hs2 (scanList_cons_ok_err hs3
      (scanList_cons_ok_err hs4 (scanList_cons_ok_err hs5 ?_))))
    refine scanList_chain_err hopen ?_
    refine scanList_cons_ok_err hone ?_
    rw [hsplit]
    refine scanList_chain_err hcl ?_
    exact scanList_cons_ok_err hpush (scanList_cons_err herr)
  exact find_of_scan_err hscan

/-! Helper lemmas about `verify_signature`. -/

theorem verify_ok_true {C : Crypto} {m sig : List Nat} {a : Address}
    {mode : MessageMode} {b : Bool}
    (h : verify_signature C m sig a mode = .ok b) : b = true := by
  unfold verify_signature at h
  cases hp : computePrehash C mode m with
  | error e => simp only [hp] at h; exact absurd h (by simp)
  | ok ph =>
    simp only [hp] at h
    cases hr : C.recoverAddress sig ph with
    | error e => simp only [hr] at h; exact absurd h (by simp)
    | ok rec =>
      simp only [hr] at h
      by_cases hre : rec ≠ a
      · rw [if_pos hre] at h; exact absurd h (by simp)
      · rw [if_neg hre] at h
        simp at h
        exact h

theorem verify_personal_ok {C : Crypto} {msg sig : List Nat} {a : Address} {b : Bool}
    (h : verify_signature C msg sig a .Personal = .ok b) :
    C.recoverAddress sig (C.keccak (personalHeader msg.length ++ msg)) = .ok a ∧
      b = true := by
  unfold verify_signature computePrehash at h
  simp only at h
  cases hr : C.recoverAddress sig (C.keccak (personalHeader msg.length ++ msg)) with
  | error e => simp only [hr] at h; exact absurd h (by simp)
  | ok rec =>
    simp only [hr] at h
    by_cases hre : rec ≠ a
    · rw [if_pos hre] at h; exact absurd h (by simp)
    · rw [if_neg hre] at h
      push_neg at hre
      subst hre
      simp at h
      exact ⟨rfl, h⟩

/-- C4: in `verify_signature`, `Raw32` mode fails with an input error
whenever the message is not exactly 32 bytes and otherwise uses the
message unchanged as the pre-hash; `Keccak` mode hashes the message with
keccak256; `Personal` mode hashes the fixed prefix
`"\x19Ethereum Signed Message:\n"` followed by the decimal message length
followed by the message. -/
theorem C4_prehash_modes :
    ∀ (C : Crypto) (m sig : List Nat) (a : Address),
      (m.length ≠ 32 → verify_signature C m sig a .Raw32 = .error .raw32Length) ∧
      (m.length = 32 → computePrehash C .Raw32 m = .ok m) ∧
      (computePrehash C .Keccak m = .ok (C.keccak m)) ∧
      (computePrehash C .Personal m =
        .ok (C.keccak ((0x19 : Nat) ::
          (strBytes "Ethereum Signed Message:" ++
            ((0x0A : Nat) :: (strBytes (toString m.length) ++ m)))))) := by
  intro C m sig a
  refine ⟨?_, ?_, rfl, ?_⟩
  · intro h
    simp [verify_signature, computePrehash, h]
  · intro h
    simp [computePrehash, h]
  · simp [computePrehash, personalHeader, List.append_assoc]

/-- C5: `verify_signature` never returns `Ok(false)`: the only success
value is `Ok(true)`, and an address mismatch is an explicit error carrying
both the recovered and the expected address. -/
theorem C5_no_ok_false :
    ∀ (C : Crypto) (m sig : List Nat) (a : Address) (mode : MessageMode),
      (∀ b, verify_signature C m sig a mode = .ok b → b = true) ∧
      (∀ ph rec, computePrehash C mode m = .ok ph →
        C.recoverAddress sig ph = .ok rec → rec ≠ a →
        verify_signature C m sig a mode = .error (.addressMismatch rec a)) := by
  intro C m sig a mode
  constructor
  · intro b h
    exact verify_ok_true h
  · intro ph rec hp hr hne
    unfold verify_signature
    simp [hp, hr, hne]

example : guestMain cryptoOk vdId inputOk = some outOk := rfl

/-- Witness for C4 at the empty message. -/
theorem C4_witness :
    verify_signature cryptoOk [] [1] 7 .Raw32 = .error .raw32Length :=
  (C4_prehash_modes cryptoOk [] [1] 7).1 (by decide)

/-- Witness for C5: a concrete mismatch, recovered 3 against expected 7. -/
theorem C5_witness :
    verify_signature cryptoBad [] [1] 7 .Keccak =
      .error (.addressMismatch 3 7) :=
  (C5_no_ok_false cryptoBad [] [1] 7 .Keccak).2 (List.replicate 32 0) 3 rfl rfl
    (by decide)

/-- C1: the guest verifies the signature in Personal (EIP-191) mode over
the entire concatenated blob, never over the sliced sub-document: whenever
it commits an Output, address recovery succeeded on the personal prehash
of the whole `typed_data_concat` and returned the claimed signer, while
the committed digest comes from the digest routine applied to the slice
only; moreover the guest is insensitive to what `recoverAddress` would
return on any prehash other than the whole-blob personal prehash. -/
theorem C1_guest_personal_scope :
    ∀ (C C' : Crypto) (vd : List Nat → Except String (List Nat))
      (input : Input) (out : Output),
      (guestMain C vd input = some out →
        C.recoverAddress input.signature
          (C.keccak (personalHeader input.typed_data_concat.length ++
            input.typed_data_concat)) = .ok input.signer ∧
        ∃ s, sliceRange input.typed_data_concat input.digest_range = some s ∧
          vd s = .ok out.digest) ∧
      (C'.keccak = C.keccak →
        (∀ sig, C'.recoverAddress sig
            (C.keccak (personalHeader input.typed_data_concat.length ++
              input.typed_data_concat)) =
          C.recoverAddress sig
            (C.keccak (personalHeader input.typed_data_concat.length ++
              input.typed_data_concat))) →
        guestMain C' vd input = guestMain C vd input) := by
  intro C C' vd input out
  constructor
  · intro h
    unfold guestMain at h
    cases hs : sliceRange input.typed_data_concat input.digest_range with
    | none => simp [hs] at h
    | some s =>
      simp only [hs] at h
      by_cases hu : isValidUtf8 s
      · rw [if_pos hu] at h
        cases hvd : vd s with
        | error e => simp [hvd] at h
        | ok d =>
          simp only [hvd] at h
          cases hvs : verify_signature C input.typed_data_concat input.signature
              input.signer .Personal with
          | error e => simp [hvs] at h
          | ok b =>
            simp only [hvs] at h
            have hout : out = ⟨input.signer, d⟩ := by simpa [eq_comm] using h
            refine ⟨(verify_personal_ok hvs).1, s, rfl, ?_⟩
            rw [hout]
            exact hvd
      · rw [if_neg hu] at h
        simp at h
  · intro hk hrec
    have hv : verify_signature C' input.typed_data_concat input.signature
        input.signer .Personal =
        verify_signature C input.typed_data_concat input.signature
          input.signer .Personal := by
      simp only [verify_signature, computePrehash, hk]
      rw [hrec input.signature]
    unfold guestMain
    rw [hv]

/-- Witness for C1 on a concrete successful guest run. -/
theorem C1_witness :
    cryptoOk.recoverAddress inputOk.signature
        (cryptoOk.keccak (personalHeader inputOk.typed_data_concat.length ++
          inputOk.typed_data_concat)) = .ok inputOk.signer ∧
    ∃ s, sliceRange inputOk.typed_data_concat inputOk.digest_range = some s ∧
      vdId s = .ok outOk.digest :=
  (C1_guest_personal_scope cryptoOk cryptoOk vdId inputOk outOk).1 rfl

/-- C2: the guest commits an Output exactly when the digest computation on
the sliced document and the signature verification over the whole blob
both succeed; the committed value is exactly the claimed signer paired
with the slice digest, and any failure yields no Output at all. -/
theorem C2_guest_commit_iff :
    ∀ (C : Crypto) (vd : List Nat → Except String (List Nat)) (input : Input),
      (∀ out : Output, guestMain C vd input = some out ↔
        ∃ s d b, sliceRange input.typed_data_concat input.digest_range = some s ∧
          isValidUtf8 s = true ∧ vd s = .ok d ∧
          verify_signature C input.typed_data_concat input.signature input.signer
            .Personal = .ok b ∧
          out = ⟨input.signer, d⟩) ∧
      (guestMain C vd input = none ↔
        ¬ ∃ s d b, sliceRange input.typed_data_concat input.digest_range = some s ∧
          isValidUtf8 s = true ∧ vd s = .ok d ∧
          verify_signature C input.typed_data_concat input.signature input.signer
            .Personal = .ok b) := by
  intro C vd input
  unfold guestMain
  cases hs : sliceRange input.typed_data_concat input.digest_range with
  | none => constructor <;> simp [hs]
  | some s =>
    by_cases hu : isValidUtf8 s
    · cases hvd : vd s with
      | error e => constructor <;> simp [hs, hu, hvd]
      | ok d =>
        cases hvs : verify_signature C input.typed_data_concat input.signature
            input.signer .Personal with
        | error e => constructor <;> simp [hs, hu, hvd, hvs]
        | ok b =>
          constructor
          · intro out
            simp [hs, hu, hvd, hvs]
            constructor
            · intro h
              exact h.symm
            · intro h
              exact h.symm
          · simp [hs, hu, hvd, hvs]
    · constructor <;> simp [hs, hu]

/-- Witness for C2 on a concrete successful guest run. -/
theorem C2_witness : guestMain cryptoOk vdId inputOk = some outOk :=
  ((C2_guest_commit_iff cryptoOk vdId inputOk).1 outOk).mpr
    ⟨[123, 125], [123, 125], true, rfl, rfl, rfl, rfl, rfl⟩

/-- C9: a digest range with start beyond end, or end beyond the blob
length, makes the guest panic at the slice (no signature check is reached
for any crypto instance), and a slice that is not valid UTF-8 panics at
`String::from_utf8`; in all these cases no Output is produced. -/
theorem C9_guest_bad_range :
    ∀ (C : Crypto) (vd : List Nat → Except String (List Nat)) (input : Input),
      ((input.digest_range.stop < input.digest_range.start ∨
        input.typed_data_concat.length < input.digest_range.stop ∨
        (∃ s, sliceRange input.typed_data_concat input.digest_range = some s ∧
          isValidUtf8 s = false)) →
        guestMain C vd input = none) ∧
      (∀ (b : List Nat) (r : DigestRange),
        sliceRange b r = none ↔ (r.stop < r.start ∨ b.length < r.stop)) := by
  intro C vd input
  constructor
  · intro h
    rcases h with h | h | ⟨s, hs, hu⟩
    · have hn : sliceRange input.typed_data_concat input.digest_range = none := by
        simp [sliceRange]
        omega
      unfold guestMain
      simp [hn]
    · have hn : sliceRange input.typed_data_concat input.digest_range = none := by
        simp [sliceRange]
        omega
      unfold guestMain
      simp [hn]
    · unfold guestMain
      simp [hs, hu]
  · intro b r
    by_cases hc : r.start ≤ r.stop ∧ r.stop ≤ b.length
    · simp [sliceRange, hc] <;> omega
    · simp [sliceRange, hc] <;> omega

/-- Witness for C9 at a concrete malformed range. -/
theorem C9_witness : guestMain cryptoOk vdId inputBad = none :=
  (C9_guest_bad_range cryptoOk vdId inputBad).1 (Or.inl (by decide))

/-- C8: after the prover returns an Output for a range, the host
recomputes the digest of the same byte range and asserts equality with
`Output.digest`; a mismatch anywhere in the list aborts the whole run, and
a document survives the check only if the recomputed digest equals the
committed one. -/
theorem C8_host_digest_check :
    ∀ (hdf : List Nat → Except String (List Nat)) (prover : Input → Option Output)
      (signer : Address) (sig blob : List Nat),
      (∀ (pre post : List DigestRange) (r : DigestRange) (out : Output)
        (s d : List Nat),
        prover (mkInput signer sig blob r) = some out →
        sliceRange blob r = some s → isValidUtf8 s = true →
        hdf s = .ok d → d ≠ out.digest →
        hostLoop hdf prover signer sig blob (pre ++ r :: post) = none) ∧
      (∀ (r : DigestRange) (out : Output),
        hostProcessRange hdf prover signer sig blob r = some out →
        ∃ s d, sliceRange blob r = some s ∧ isValidUtf8 s = true ∧
          hdf s = .ok d ∧ d = out.digest ∧
          prover (mkInput signer sig blob r) = some out) := by
  intro hdf prover signer sig blob
  constructor
  · intro pre post r out s d hp hs hu hdd hne
    induction pre with
    | nil =>
      have hpr : hostProcessRange hdf prover signer sig blob r = none := by
        unfold hostProcessRange
        simp [hp, hs, hu, hdd, hne]
      show hostLoop hdf prover signer sig blob (r :: post) = none
      unfold hostLoop
      simp [hpr]
    | cons q pre ih =>
      show hostLoop hdf prover signer sig blob (q :: (pre ++ r :: post)) = none
      unfold hostLoop
      cases hq : hostProcessRange hdf prover signer sig blob q with
      | none => simp
      | some o => simp [ih]
  · intro r out h
    unfold hostProcessRange at h
    cases hp : prover (mkInput signer sig blob r) with
    | none => simp [hp] at h
    | some o =>
      simp only [hp] at h
      cases hs : sliceRange blob r with
      | none => simp [hs] at h
      | some s =>
        simp only [hs] at h
        by_cases hu : isValidUtf8 s
        · rw [if_pos hu] at h
          cases hdd : hdf s with
          | error e => simp [hdd] at h
          | ok d =>
            simp only [hdd] at h
            by_cases he : d = o.digest
            · rw [if_pos he] at h
              simp at h
              subst h
              exact ⟨s, d, rfl, hu, hdd, he, rfl⟩
            · rw [if_neg he] at h
              simp at h
        · rw [if_neg hu] at h
          simp at h

/-- Witness for C8: a concrete digest mismatch aborts the run. -/
theorem C8_witness :
    hostLoop hdW proverW 7 [1] [123, 125] ([] ++ ⟨0, 2⟩ :: []) = none :=
  (C8_host_digest_check hdW proverW 7 [1] [123, 125]).1 [] [] ⟨0, 2⟩ outOk
    [123, 125] [9] rfl rfl rfl rfl (by decide)

/-- C3 (amended): for every input made of exactly N well-formed top-level
JSON objects, with whitespace permitted between their tokens and between
the objects, in which every object keeps its brace-nesting depth at most
u32::MAX (2^32 - 1), the scanner returns exactly N ranges, non-overlapping
and strictly increasing in start, each within bounds and closed just after
its matching top-level closing brace. The depth bound is necessary: see
the counterexample. -/
theorem C3_scanner_complete :
    ∀ (lead : List Char) (parts : List (TopObj × List Char)),
      allWs lead = true → WfParts parts →
      find_concatenated_json_ranges (lead ++ buildInput parts) =
        .ok (expectedRanges (utf8Len lead) parts) ∧
      (expectedRanges (utf8Len lead) parts).length = parts.length ∧
      List.Pairwise (fun a b : DigestRange => a.start < b.start ∧ a.stop ≤ b.start)
        (expectedRanges (utf8Len lead) parts) ∧
      (∀ r ∈ expectedRanges (utf8Len lead) parts,
        r.start ≤ r.stop ∧ r.stop ≤ utf8Len (lead ++ buildInput parts) ∧
        charAtByte (lead ++ buildInput parts) r.start = some '{' ∧
        charAtByte (lead ++ buildInput parts) (r.stop - 1) = some '}') := by
  intro lead parts hlead hparts
  have hfind := find_buildInput lead parts hlead hparts
  refine ⟨hfind, er_length parts _, er_pairwise parts _, ?_⟩
  intro r hr
  have hok := find_ok_rangeOk hfind r hr
  obtain ⟨h1, h2, h3, h4⟩ := hok
  exact ⟨by omega, h4, h1, h2⟩

/-- Witness for C3 on the concrete input made of a blank, the object
`\x7b\x7d`, a blank, and the object with one pair. -/
theorem C3_witness :
    find_concatenated_json_ranges ([' '] ++ buildInput partsW) =
      .ok (expectedRanges (utf8Len [' ']) partsW) :=
  (C3_scanner_complete [' '] partsW (by decide) (by unfold WfParts; decide)).1

/-- Counterexample to C3 as stated: one single well-formed JSON object
(whitespace-free, so exactly N = 1), nested 2^32 braces deep, on which the
scanner returns an error instead of one range, because its u32 depth
counter saturates. -/
theorem C3_counterexample :
    wfMembers (JMembers.cons [] [SItem.safe 'a'] [] [] (deepVal 4294967295) []
      JMembers.nil) = true ∧
    allWs ([] : List Char) = true ∧
    find_concatenated_json_ranges
      (([] : List Char) ++ buildInput
        [(⟨[], JMembers.cons [] [SItem.safe 'a'] [] [] (deepVal 4294967295) []
            JMembers.nil⟩, [])]) =
      .error (.unmatchedClosingBrace 25769803776) := by
  have hwf' : (allWs ([] : List Char) &&
      wfMembers (JMembers.cons [] [SItem.safe 'a'] [] [] (deepVal 4294967295) []
        JMembers.nil)) = true := wf_deepVal 4294967296
  have h2 := hwf'
  simp only [Bool.and_eq_true] at h2
  refine ⟨h2.2, rfl, ?_⟩
  have hb : (([] : List Char) ++ buildInput
      [(⟨[], JMembers.cons [] [SItem.safe 'a'] [] [] (deepVal 4294967295) []
          JMembers.nil⟩, ([] : List Char))]) =
      serVal (deepVal 4294967296) := by
    show buildInput _ = _
    show serObj _ ++ (([] : List Char) ++ buildInput []) = _
    rw [show (([] : List Char) ++ buildInput []) = [] from rfl, List.append_nil]
    rfl
  rw [hb]
  exact scan_deep_fails

/-- C6: inside a string literal no character changes the brace depth, the
recorded start, or the ranges; a backslash escapes exactly the next
character (so an escaped quote, even one directly followed by a closing
brace, does not end the string), and an unescaped quote leaves the
string. -/
theorem C6_string_state :
    ∀ (st : ScanState) (c : Char), st.inString = true →
      (∀ st', scanStep st c = .ok st' →
        st'.depth = st.depth ∧ st'.ranges = st.ranges ∧
        st'.currentStart = st.currentStart) ∧
      (st.escape = true →
        scanStep st c = .ok { st with escape := false, idx := st.idx + utf8Width c }) ∧
      (st.escape = false → c = '\\' →
        scanStep st c = .ok { st with escape := true, idx := st.idx + utf8Width c }) ∧
      (st.escape = false → c = '"' →
        scanStep st c = .ok { st with inString := false, idx := st.idx + utf8Width c }) ∧
      (st.escape = false → c ≠ '\\' → c ≠ '"' →
        scanStep st c = .ok { st with idx := st.idx + utf8Width c }) ∧
      (st.escape = false →
        scanList st ['\\', '"', '}'] = .ok { st with idx := st.idx + 3 }) := by
  intro st c hstr
  refine ⟨?_, ?_, ?_, ?_, ?_, ?_⟩
  · intro st' h
    unfold scanStep at h
    rw [hstr] at h
    by_cases hesc : st.escape = true
    · rw [if_pos rfl, if_pos hesc] at h
      cases h
      exact ⟨rfl, rfl, rfl⟩
    · rw [if_pos rfl, if_neg hesc] at h
      by_cases hb : c = '\\'
      · rw [if_pos hb] at h
        cases h
        exact ⟨rfl, rfl, rfl⟩
      · rw [if_neg hb] at h
        by_cases hq : c = '"'
        · rw [if_pos hq] at h
          cases h
          exact ⟨rfl, rfl, rfl⟩
        · rw [if_neg hq] at h
          cases h
          exact ⟨rfl, rfl, rfl⟩
  · intro hesc
    simp [scanStep, hstr, hesc]
  · intro hesc hb
    subst hb
    simp [scanStep, hstr, hesc]
  · intro hesc hq
    subst hq
    have hb : ¬(('"' : Char) = '\\') := by decide
    simp [scanStep, hstr, hesc, hb]
  · intro hesc hb hq
    simp [scanStep, hstr, hesc, hb, hq]
  · intro hesc
    obtain ⟨i0, d0, istr, esc, cur, rng⟩ := st
    have h1 : istr = true := hstr
    have h2 : esc = false := hesc
    subst h1; subst h2
    have hs1 : scanStep ⟨i0, d0, true, false, cur, rng⟩ '\\' =
        .ok ⟨i0 + 1, d0, true, true, cur, rng⟩ := by
      simp [scanStep, w_bs]
    have hs2 : scanStep ⟨i0 + 1, d0, true, true, cur, rng⟩ '"' =
        .ok ⟨i0 + 1 + 1, d0, true, false, cur, rng⟩ := by
      simp [scanStep, w_q]
    have hs3 : scanStep ⟨i0 + 1 + 1, d0, true, false, cur, rng⟩ '}' =
        .ok ⟨i0 + 1 + 1 + 1, d0, true, false, cur, rng⟩ := by
      have ha : ¬(('}' : Char) = '\\') := by decide
      have hb : ¬(('}' : Char) = '"') := by decide
      simp [scanStep, ha, hb, w_cb]
    refine scanList_cons_ok hs1 (scanList_cons_ok hs2 (scanList_cons_ok hs3 ?_))
    show Except.ok _ = Except.ok _
    simp [scanList] <;> omega

/-- Witness for C6: the scan of backslash, quote, closing brace from
inside a string leaves depth and ranges untouched. -/
theorem C6_witness :
    scanList stStr ['\\', '"', '}'] = .ok { stStr with idx := stStr.idx + 3 } :=
  (C6_string_state stStr 'x' rfl).2.2.2.2.2 rfl

/-- C7: the scanner fails on the single closing brace with an unmatched
closing brace error at byte 0, fails on the single opening brace with the
nonzero-depth-at-end error (depth 1), and an error run never returns any
ranges, even when complete ranges had already been found (as on the input
brace, brace, brace where one full object precedes the error). -/
theorem C7_scanner_errors :
    (find_concatenated_json_ranges ['}'] = .error (.unmatchedClosingBrace 0)) ∧
    (find_concatenated_json_ranges ['{'] = .error (.unclosedObjects 1)) ∧
    (find_concatenated_json_ranges ['{', '}', '}'] =
      .error (.unmatchedClosingBrace 2)) ∧
    (∀ (input : List Char) (e : ScanError) (rs : List DigestRange),
      find_concatenated_json_ranges input = .error e →
      find_concatenated_json_ranges input ≠ .ok rs) := by
  refine ⟨rfl, rfl, rfl, ?_⟩
  intro input e rs he hok
  rw [he] at hok
  exact absurd hok (by simp)

/-- Witness for C7: no range list is returned for the single closing
brace. -/
theorem C7_witness :
    find_concatenated_json_ranges ['}'] ≠ .ok [] :=
  C7_scanner_errors.2.2.2 ['}'] (.unmatchedClosingBrace 0) []
    C7_scanner_errors.1

/-- C10: every range returned by a successful scan spans at least two
bytes, starts at an opening brace byte, and its last byte is a closing
brace. -/
theorem C10_range_shape :
    ∀ (input : List Char) (rs : List DigestRange),
      find_concatenated_json_ranges input = .ok rs →
      ∀ r ∈ rs, r.start + 2 ≤ r.stop ∧
        charAtByte input r.start = some '{' ∧
        charAtByte input (r.stop - 1) = some '}' := by
  intro input rs h r hr
  obtain ⟨h1, h2, h3, h4⟩ := find_ok_rangeOk h r hr
  exact ⟨h3, h1, h2⟩

/-- Witness for C10 on the two-byte object. -/
theorem C10_witness :
    (0 : Nat) + 2 ≤ 2 ∧
    charAtByte ['{', '}'] 0 = some '{' ∧
    charAtByte ['{', '}'] (2 - 1) = some '}' :=
  C10_range_shape ['{', '}'] [⟨0, 2⟩] rfl ⟨0, 2⟩ (by simp)

end SingleSign
